import Mathlib

/-!
Shallow embedding of the cup-and-handle pattern detector (`src/logic.py`).

Prices are modelled as rational numbers, Python lists as `List ℚ`, and the
threshold dictionaries as structures of `Option ℚ` fields (a `none` field is
a missing dictionary key).  Python code that can raise an exception
(`min`/`max` of an empty list, a dictionary access on a missing key) is
modelled in the `Option` monad: `none` is an uncaught exception.
-/

/-- `prices[i]` for an index that is in range (all call sites keep it in
range); out-of-range reads default to 0 and are never exercised. -/
def price (prices : List ℚ) (i : ℕ) : ℚ := prices.getD i 0

/-- Python slice `xs[lo:hi]` for natural `lo ≤ hi` (clipped at the end of the
list, as in Python). -/
def listSlice (lo hi : ℕ) (xs : List ℚ) : List ℚ := (xs.drop lo).take (hi - lo)

/-- Python `min(xs)`: `none` (a `ValueError`) on the empty list. -/
def listMin : List ℚ → Option ℚ
  | [] => none
  | x :: xs => some (xs.foldl min x)

/-- Python `max(xs)`: `none` (a `ValueError`) on the empty list. -/
def listMax : List ℚ → Option ℚ
  | [] => none
  | x :: xs => some (xs.foldl max x)

/-- `is_local_minima(i, prices, window_size)` from `src/logic.py`.
`none` models the `ValueError` raised by `min` of an empty window; the
`and` in the source short-circuits, so the right window is only inspected
when the left comparison succeeds. -/
def is_local_minima (i : ℕ) (prices : List ℚ) (window_size : ℕ) : Option Bool :=
  let left_window := listSlice (i - window_size) i prices
  let right_window := listSlice (i + 1) (min (i + window_size + 1) prices.length) prices
  (listMin left_window).bind fun ml =>
    if price prices i < ml then
      (listMin right_window).map fun mr => decide (price prices i < mr)
    else
      some false

/-- `is_local_maxima(i, prices, window_size)` from `src/logic.py`. -/
def is_local_maxima (i : ℕ) (prices : List ℚ) (window_size : ℕ) : Option Bool :=
  let left_window := listSlice (i - window_size) i prices
  let right_window := listSlice (i + 1) (min (i + window_size + 1) prices.length) prices
  (listMax left_window).bind fun ml =>
    if ml < price prices i then
      (listMax right_window).map fun mr => decide (mr < price prices i)
    else
      some false

/-- The loop body of `get_min_max_indices`: scans the index list in order,
evaluating the maxima test and then the minima test at each index (both are
evaluated, as in the source), appending qualifying indices in scan order. -/
def gmmGo (prices : List ℚ) (window_size : ℕ) : List ℕ → Option (List ℕ × List ℕ)
  | [] => some ([], [])
  | i :: rest =>
    (is_local_maxima i prices window_size).bind fun bmax =>
    (is_local_minima i prices window_size).bind fun bmin =>
    (gmmGo prices window_size rest).bind fun mxmn =>
    some ((if bmax then i :: mxmn.1 else mxmn.1), (if bmin then i :: mxmn.2 else mxmn.2))

/-- `get_min_max_indices(prices, window_size)` from `src/logic.py`.
The Python loop runs over `range(window_size, len(prices) - window_size)`;
with truncated natural subtraction `len - w - w` is exactly the Python
count `max(0, (len - w) - w)`. -/
def get_min_max_indices (prices : List ℚ) (window_size : ℕ) : Option (List ℕ × List ℕ) :=
  gmmGo prices window_size
    (List.range' window_size (prices.length - window_size - window_size))

/-- The four keys of the `distance_thresholds` dictionary. -/
inductive DistPair
  | a_b | b_c | c_d | d_e
deriving DecidableEq

/-- The `distance_thresholds` dictionary: `none` is a missing key. -/
structure DistanceThresholds where
  a_b : Option ℚ
  b_c : Option ℚ
  c_d : Option ℚ
  d_e : Option ℚ
deriving DecidableEq

/-- Dictionary lookup `distance_thresholds[pair_name]`. -/
def dtLookup (dt : DistanceThresholds) : DistPair → Option ℚ
  | DistPair.a_b => dt.a_b
  | DistPair.b_c => dt.b_c
  | DistPair.c_d => dt.c_d
  | DistPair.d_e => dt.d_e

/-- `distance_is_valid(a, b, distance_thresholds, pair_name)` from
`src/logic.py`: `abs(a - b) >= threshold` when the key is present, `False`
when it is missing (`pair_name in distance_thresholds` guard). -/
def distance_is_valid (a b : ℕ) (distance_thresholds : DistanceThresholds)
    (pair_name : DistPair) : Bool :=
  let distance : ℚ := (((a : ℤ) - (b : ℤ)).natAbs : ℚ)
  match dtLookup distance_thresholds pair_name with
  | some t => decide (distance ≥ t)
  | none => false

/-- The six keys of the `price_thresholds` dictionary. -/
inductive PricePair
  | a_b | b_c | a_c | c_d | b_d | d_e
deriving DecidableEq

/-- The `price_thresholds` dictionary: `none` is a missing key. -/
structure PriceThresholds where
  a_b : Option ℚ
  b_c : Option ℚ
  a_c : Option ℚ
  c_d : Option ℚ
  b_d : Option ℚ
  d_e : Option ℚ
deriving DecidableEq

/-- Line 76 of `src/logic.py`: the a→b check fails (`valid = False`) when
`prices[a] - prices[b] <= price_thresholds[a_b] * prices[a]`.  The anchor
price is the first argument. -/
def bad_ab (pa pb t : ℚ) : Bool := decide (pa - pb ≤ t * pa)

/-- Line 80: fails when `prices[c] - prices[b] <= price_thresholds[b_c] * prices[b]`. -/
def bad_bc (pb pc t : ℚ) : Bool := decide (pc - pb ≤ t * pb)

/-- Line 84: fails when `abs(prices[c] - prices[a]) >= price_thresholds[a_c] * prices[a]`. -/
def bad_ac (pa pc t : ℚ) : Bool := decide (|pc - pa| ≥ t * pa)

/-- Line 89: fails when `prices[c] - prices[d] <= price_thresholds[c_d] * prices[c]`. -/
def bad_cd (pc pd t : ℚ) : Bool := decide (pc - pd ≤ t * pc)

/-- Line 93: fails when `prices[d] - prices[b] <= price_thresholds[b_d] * prices[b]`. -/
def bad_bd (pb pd t : ℚ) : Bool := decide (pd - pb ≤ t * pb)

/-- Line 97: fails when `prices[e] - prices[d] <= price_thresholds[d_e] * prices[d]`. -/
def bad_de (pd pe t : ℚ) : Bool := decide (pe - pd ≤ t * pd)

/-- One `if x is not None and y is not None and bad(...)` clause of
`price_difference_is_valid`.  When both points are present the dictionary
key is accessed (`none` is the `KeyError`); otherwise the clause does not
fire and no key is touched (Python `and` short-circuits). -/
def clause (prices : List ℚ) (x y : Option ℕ) (th : Option ℚ)
    (bad : ℚ → ℚ → ℚ → Bool) : Option Bool :=
  match x, y with
  | some i, some j => th.map fun t => bad (price prices i) (price prices j) t
  | _, _ => some false

/-- `price_difference_is_valid(a, b, c, d, e, prices, price_thresholds)`
from `src/logic.py`: the six clauses are evaluated in source order (each can
raise a `KeyError`, modelled as `none`), the result is `True` exactly when
no clause fired. -/
def price_difference_is_valid (a b c d e : Option ℕ) (prices : List ℚ)
    (price_thresholds : PriceThresholds) : Option Bool :=
  (clause prices a b price_thresholds.a_b bad_ab).bind fun v1 =>
  (clause prices b c price_thresholds.b_c bad_bc).bind fun v2 =>
  (clause prices a c price_thresholds.a_c bad_ac).bind fun v3 =>
  (clause prices c d price_thresholds.c_d bad_cd).bind fun v4 =>
  (clause prices b d price_thresholds.b_d bad_bd).bind fun v5 =>
  (clause prices d e price_thresholds.d_e bad_de).bind fun v6 =>
  some (!(v1 || v2 || v3 || v4 || v5 || v6))

/-- A candidate quintuple of indices `(a, b, c, d, e)`. -/
abbrev Pattern := ℕ × ℕ × ℕ × ℕ × ℕ

/-- The default `distance_thresholds` of `find_cup_and_handle_pattern`. -/
def default_distance_thresholds : DistanceThresholds :=
  { a_b := some 10, b_c := some 10, c_d := some 10, d_e := some 10 }

/-- The default `price_thresholds` of `find_cup_and_handle_pattern`. -/
def default_price_thresholds : PriceThresholds :=
  { a_b := some (5 / 1000), b_c := some (5 / 1000), a_c := some (5 / 1000),
    c_d := some (5 / 1000), b_d := some (5 / 1000), d_e := some (5 / 1000) }

/-- Innermost loop of `find_cup_and_handle_pattern`: `for e in maxima`. -/
def loopE (prices : List ℚ) (pt : PriceThresholds) (dt : DistanceThresholds)
    (a b c d : ℕ) : List ℕ → Option (List Pattern)
  | [] => some []
  | e :: rest =>
    if decide (d < e) && distance_is_valid d e dt DistPair.d_e then
      (price_difference_is_valid (some a) (some b) (some c) (some d) (some e)
          prices pt).bind fun v =>
      (loopE prices pt dt a b c d rest).bind fun tail =>
      some (if v then (a, b, c, d, e) :: tail else tail)
    else loopE prices pt dt a b c d rest

/-- `for d in minima` loop: on a valid candidate `d` the whole `e` loop runs
over `maxima` before the next `d` is considered. -/
def loopD (prices : List ℚ) (pt : PriceThresholds) (dt : DistanceThresholds)
    (maxima : List ℕ) (a b c : ℕ) : List ℕ → Option (List Pattern)
  | [] => some []
  | d :: rest =>
    if decide (c < d) && distance_is_valid c d dt DistPair.c_d then
      (price_difference_is_valid (some a) (some b) (some c) (some d) none
          prices pt).bind fun v =>
      if v then
        (loopE prices pt dt a b c d maxima).bind fun block =>
        (loopD prices pt dt maxima a b c rest).bind fun tail =>
        some (block ++ tail)
      else loopD prices pt dt maxima a b c rest
    else loopD prices pt dt maxima a b c rest

/-- `for c in maxima` loop. -/
def loopC (prices : List ℚ) (pt : PriceThresholds) (dt : DistanceThresholds)
    (maxima minima : List ℕ) (a b : ℕ) : List ℕ → Option (List Pattern)
  | [] => some []
  | c :: rest =>
    if decide (b < c) && distance_is_valid b c dt DistPair.b_c then
      (price_difference_is_valid (some a) (some b) (some c) none none
          prices pt).bind fun v =>
      if v then
        (loopD prices pt dt maxima a b c minima).bind fun block =>
        (loopC prices pt dt maxima minima a b rest).bind fun tail =>
        some (block ++ tail)
      else loopC prices pt dt maxima minima a b rest
    else loopC prices pt dt maxima minima a b rest

/-- `for b in minima` loop. -/
def loopB (prices : List ℚ) (pt : PriceThresholds) (dt : DistanceThresholds)
    (maxima minima : List ℕ) (a : ℕ) : List ℕ → Option (List Pattern)
  | [] => some []
  | b :: rest =>
    if decide (a < b) && distance_is_valid a b dt DistPair.a_b then
      (price_difference_is_valid (some a) (some b) none none none
          prices pt).bind fun v =>
      if v then
        (loopC prices pt dt maxima minima a b maxima).bind fun block =>
        (loopB prices pt dt maxima minima a rest).bind fun tail =>
        some (block ++ tail)
      else loopB prices pt dt maxima minima a rest
    else loopB prices pt dt maxima minima a rest

/-- Outermost loop: `for i in range(len(maxima) - 4): a = maxima[i]`,
i.e. `a` runs over the first `len(maxima) - 4` entries of `maxima`. -/
def loopA (prices : List ℚ) (pt : PriceThresholds) (dt : DistanceThresholds)
    (maxima minima : List ℕ) : List ℕ → Option (List Pattern)
  | [] => some []
  | a :: rest =>
    (loopB prices pt dt maxima minima a minima).bind fun block =>
    (loopA prices pt dt maxima minima rest).bind fun tail =>
    some (block ++ tail)

/-- `find_cup_and_handle_pattern(prices, window_size, price_thresholds,
distance_thresholds)` from `src/logic.py`; `none` arguments take the
documented defaults, and a `none` result models an uncaught exception. -/
def find_cup_and_handle_pattern (prices : List ℚ) (window_size : ℕ)
    (ptOpt : Option PriceThresholds) (dtOpt : Option DistanceThresholds) :
    Option (List Pattern) :=
  let dt := dtOpt.getD default_distance_thresholds
  let pt := ptOpt.getD default_price_thresholds
  (get_min_max_indices prices window_size).bind fun mxmn =>
  loopA prices pt dt mxmn.1 mxmn.2 (mxmn.1.take (mxmn.1.length - 4))

/-- `detect_cup_and_handle(prices)` from `src/logic.py`:
`len(find_cup_and_handle_pattern(prices)) > 0`. -/
def detect_cup_and_handle (prices : List ℚ) : Option Bool :=
  (find_cup_and_handle_pattern prices 5 none none).map fun l =>
    decide (0 < l.length)

/-- Field update of the price-threshold dictionary at one key. -/
def ptSet (pt : PriceThresholds) (k : PricePair) (v : ℚ) : PriceThresholds :=
  match k with
  | PricePair.a_b => { pt with a_b := some v }
  | PricePair.b_c => { pt with b_c := some v }
  | PricePair.a_c => { pt with a_c := some v }
  | PricePair.c_d => { pt with c_d := some v }
  | PricePair.b_d => { pt with b_d := some v }
  | PricePair.d_e => { pt with d_e := some v }

/-- All six price-threshold keys are present. -/
def completePT (pt : PriceThresholds) : Prop :=
  pt.a_b.isSome = true ∧ pt.b_c.isSome = true ∧ pt.a_c.isSome = true ∧
  pt.c_d.isSome = true ∧ pt.b_d.isSome = true ∧ pt.d_e.isSome = true

instance (pt : PriceThresholds) : Decidable (completePT pt) := by
  unfold completePT; infer_instance

/-! ### Helper lemmas: folds, slices, window characterizations -/

lemma foldl_max_lt_iff (l : List ℚ) (a q : ℚ) :
    l.foldl max a < q ↔ a < q ∧ ∀ y ∈ l, y < q := by
  induction l generalizing a with
  | nil => simp
  | cons x xs ih =>
    simp only [List.foldl_cons, ih, max_lt_iff, List.mem_cons]
    constructor
    · rintro ⟨⟨h1, h2⟩, h3⟩
      exact ⟨h1, fun y hy => hy.elim (fun h => h ▸ h2) (h3 y)⟩
    · rintro ⟨h1, h2⟩
      exact ⟨⟨h1, h2 x (Or.inl rfl)⟩, fun y hy => h2 y (Or.inr hy)⟩

lemma lt_foldl_min_iff (l : List ℚ) (a q : ℚ) :
    q < l.foldl min a ↔ q < a ∧ ∀ y ∈ l, q < y := by
  induction l generalizing a with
  | nil => simp
  | cons x xs ih =>
    simp only [List.foldl_cons, ih, lt_min_iff, List.mem_cons]
    constructor
    · rintro ⟨⟨h1, h2⟩, h3⟩
      exact ⟨h1, fun y hy => hy.elim (fun h => h ▸ h2) (h3 y)⟩
    · rintro ⟨h1, h2⟩
      exact ⟨⟨h1, h2 x (Or.inl rfl)⟩, fun y hy => h2 y (Or.inr hy)⟩

lemma price_eq_getElem (xs : List ℚ) (j : ℕ) (h : j < xs.length) :
    price xs j = xs[j] := by
  simp [price, List.getD_eq_getElem?_getD, List.getElem?_eq_getElem h]

lemma length_listSlice (lo hi : ℕ) (xs : List ℚ) :
    (listSlice lo hi xs).length = min (hi - lo) (xs.length - lo) := by
  simp [listSlice]

lemma forall_mem_listSlice {lo hi : ℕ} {xs : List ℚ} (hhi : hi ≤ xs.length)
    (Q : ℚ → Prop) :
    (∀ y ∈ listSlice lo hi xs, Q y) ↔ ∀ j, lo ≤ j → j < hi → Q (price xs j) := by
  unfold listSlice
  constructor
  · intro h j hj1 hj2
    have hjlen : j < xs.length := lt_of_lt_of_le hj2 hhi
    have hlt : j - lo < ((xs.drop lo).take (hi - lo)).length := by
      simp only [List.length_take, List.length_drop]
      omega
    have hval : ((xs.drop lo).take (hi - lo))[j - lo] = xs[j] := by
      simp only [List.getElem_take, List.getElem_drop]
      congr 1
      omega
    have hmem : xs[j] ∈ (xs.drop lo).take (hi - lo) := by
      rw [← hval]
      exact List.getElem_mem hlt
    have := h _ hmem
    rwa [price_eq_getElem xs j hjlen]
  · intro h y hy
    obtain ⟨k, hk, hval⟩ := List.mem_iff_getElem.mp hy
    have hk2 : k < min (hi - lo) (xs.length - lo) := by
      simpa [List.length_take, List.length_drop] using hk
    have hlk : lo + k < xs.length := by omega
    have hxval : ((xs.drop lo).take (hi - lo))[k] = xs[lo + k] := by
      simp only [List.getElem_take, List.getElem_drop]
    have := h (lo + k) (by omega) (by omega)
    rw [price_eq_getElem xs (lo + k) hlk] at this
    rw [← hval, hxval]
    exact this

lemma is_local_maxima_eligible (P : List ℚ) (w i : ℕ) (hw : 1 ≤ w)
    (hwi : w ≤ i) (hiN : i + w < P.length) :
    is_local_maxima i P w =
      some (decide ((∀ j, i - w ≤ j → j < i → price P j < price P i) ∧
                    (∀ j, i + 1 ≤ j → j < i + w + 1 → price P j < price P i))) := by
  have hiL : i ≤ P.length := by omega
  have hiR : i + w + 1 ≤ P.length := by omega
  have hmin : min (i + w + 1) P.length = i + w + 1 := by omega
  unfold is_local_maxima
  rw [hmin]
  rcases hL : listSlice (i - w) i P with _ | ⟨x, xs⟩
  · exfalso
    have hlen := length_listSlice (i - w) i P
    rw [hL] at hlen
    simp only [List.length_nil] at hlen
    omega
  rcases hR : listSlice (i + 1) (i + w + 1) P with _ | ⟨z, zs⟩
  · exfalso
    have hlen := length_listSlice (i + 1) (i + w + 1) P
    rw [hR] at hlen
    simp only [List.length_nil] at hlen
    omega
  have hAiff : (xs.foldl max x < price P i) ↔
      (∀ j, i - w ≤ j → j < i → price P j < price P i) := by
    rw [foldl_max_lt_iff]
    have h1 : (x < price P i ∧ ∀ y ∈ xs, y < price P i) ↔
        (∀ y ∈ x :: xs, y < price P i) := by
      constructor
      · rintro ⟨ha, hb⟩ y hy
        rcases List.mem_cons.mp hy with h | h
        · exact h ▸ ha
        · exact hb y h
      · intro h
        exact ⟨h x (List.mem_cons_self x xs), fun y hy => h y (List.mem_cons_of_mem x hy)⟩
    rw [h1, ← hL, forall_mem_listSlice hiL]
  have hBiff : (zs.foldl max z < price P i) ↔
      (∀ j, i + 1 ≤ j → j < i + w + 1 → price P j < price P i) := by
    rw [foldl_max_lt_iff]
    have h1 : (z < price P i ∧ ∀ y ∈ zs, y < price P i) ↔
        (∀ y ∈ z :: zs, y < price P i) := by
      constructor
      · rintro ⟨ha, hb⟩ y hy
        rcases List.mem_cons.mp hy with h | h
        · exact h ▸ ha
        · exact hb y h
      · intro h
        exact ⟨h z (List.mem_cons_self z zs), fun y hy => h y (List.mem_cons_of_mem z hy)⟩
    rw [h1, ← hR, forall_mem_listSlice hiR]
  simp only [listMax, Option.bind_eq_bind, Option.some_bind, Option.map_some]
  by_cases hA : xs.foldl max x < price P i
  · rw [if_pos hA]
    simp only [Option.map_some']
    have : (zs.foldl max z < price P i) ↔
        ((∀ j, i - w ≤ j → j < i → price P j < price P i) ∧
         (∀ j, i + 1 ≤ j → j < i + w + 1 → price P j < price P i)) := by
      rw [hBiff]
      have hA2 := hAiff.mp hA
      exact ⟨fun h => ⟨hA2, h⟩, fun h => h.2⟩
    rw [decide_eq_decide.mpr this]
  · rw [if_neg hA]
    have : ¬((∀ j, i - w ≤ j → j < i → price P j < price P i) ∧
             (∀ j, i + 1 ≤ j → j < i + w + 1 → price P j < price P i)) := by
      intro h
      exact hA (hAiff.mpr h.1)
    exact (congrArg some (decide_eq_false this)).symm

lemma is_local_minima_eligible (P : List ℚ) (w i : ℕ) (hw : 1 ≤ w)
    (hwi : w ≤ i) (hiN : i + w < P.length) :
    is_local_minima i P w =
      some (decide ((∀ j, i - w ≤ j → j < i → price P i < price P j) ∧
                    (∀ j, i + 1 ≤ j → j < i + w + 1 → price P i < price P j))) := by
  have hiL : i ≤ P.length := by omega
  have hiR : i + w + 1 ≤ P.length := by omega
  have hmin : min (i + w + 1) P.length = i + w + 1 := by omega
  unfold is_local_minima
  rw [hmin]
  rcases hL : listSlice (i - w) i P with _ | ⟨x, xs⟩
  · exfalso
    have hlen := length_listSlice (i - w) i P
    rw [hL] at hlen
    simp only [List.length_nil] at hlen
    omega
  rcases hR : listSlice (i + 1) (i + w + 1) P with _ | ⟨z, zs⟩
  · exfalso
    have hlen := length_listSlice (i + 1) (i + w + 1) P
    rw [hR] at hlen
    simp only [List.length_nil] at hlen
    omega
  have hAiff : (price P i < xs.foldl min x) ↔
      (∀ j, i - w ≤ j → j < i → price P i < price P j) := by
    rw [lt_foldl_min_iff]
    have h1 : (price P i < x ∧ ∀ y ∈ xs, price P i < y) ↔
        (∀ y ∈ x :: xs, price P i < y) := by
      constructor
      · rintro ⟨ha, hb⟩ y hy
        rcases List.mem_cons.mp hy with h | h
        · exact h ▸ ha
        · exact hb y h
      · intro h
        exact ⟨h x (List.mem_cons_self x xs), fun y hy => h y (List.mem_cons_of_mem x hy)⟩
    rw [h1, ← hL, forall_mem_listSlice hiL]
  have hBiff : (price P i < zs.foldl min z) ↔
      (∀ j, i + 1 ≤ j → j < i + w + 1 → price P i < price P j) := by
    rw [lt_foldl_min_iff]
    have h1 : (price P i < z ∧ ∀ y ∈ zs, price P i < y) ↔
        (∀ y ∈ z :: zs, price P i < y) := by
      constructor
      · rintro ⟨ha, hb⟩ y hy
        rcases List.mem_cons.mp hy with h | h
        · exact h ▸ ha
        · exact hb y h
      · intro h
        exact ⟨h z (List.mem_cons_self z zs), fun y hy => h y (List.mem_cons_of_mem z hy)⟩
    rw [h1, ← hR, forall_mem_listSlice hiR]
  simp only [listMin, Option.bind_eq_bind, Option.some_bind, Option.map_some]
  by_cases hA : price P i < xs.foldl min x
  · rw [if_pos hA]
    simp only [Option.map_some']
    have : (price P i < zs.foldl min z) ↔
        ((∀ j, i - w ≤ j → j < i → price P i < price P j) ∧
         (∀ j, i + 1 ≤ j → j < i + w + 1 → price P i < price P j)) := by
      rw [hBiff]
      have hA2 := hAiff.mp hA
      exact ⟨fun h => ⟨hA2, h⟩, fun h => h.2⟩
    rw [decide_eq_decide.mpr this]
  · rw [if_neg hA]
    have : ¬((∀ j, i - w ≤ j → j < i → price P i < price P j) ∧
             (∀ j, i + 1 ≤ j → j < i + w + 1 → price P i < price P j)) := by
      intro h
      exact hA (hAiff.mpr h.1)
    exact (congrArg some (decide_eq_false this)).symm

/-- The boolean maxima test as used by the scan (total on eligible indices). -/
def maxTest (P : List ℚ) (w i : ℕ) : Bool := (is_local_maxima i P w).getD false

/-- The boolean minima test as used by the scan. -/
def minTest (P : List ℚ) (w i : ℕ) : Bool := (is_local_minima i P w).getD false

lemma gmmGo_eq_filter (P : List ℚ) (w : ℕ) (l : List ℕ)
    (h : ∀ i ∈ l, (is_local_maxima i P w).isSome = true ∧
        (is_local_minima i P w).isSome = true) :
    gmmGo P w l = some (l.filter (maxTest P w), l.filter (minTest P w)) := by
  induction l with
  | nil => simp [gmmGo]
  | cons i rest ih =>
    obtain ⟨h1, h2⟩ := h i (List.mem_cons_self i rest)
    obtain ⟨bmax, hb1⟩ := Option.isSome_iff_exists.mp h1
    obtain ⟨bmin, hb2⟩ := Option.isSome_iff_exists.mp h2
    rw [show gmmGo P w (i :: rest) =
        (is_local_maxima i P w).bind fun bmax =>
        (is_local_minima i P w).bind fun bmin =>
        (gmmGo P w rest).bind fun mxmn =>
        some ((if bmax then i :: mxmn.1 else mxmn.1),
              (if bmin then i :: mxmn.2 else mxmn.2)) from rfl]
    rw [hb1, hb2, ih (fun j hj => h j (List.mem_cons_of_mem i hj))]
    simp only [Option.some_bind, Option.bind_eq_bind]
    rw [List.filter_cons, List.filter_cons]
    simp only [maxTest, minTest, hb1, hb2, Option.getD_some]

lemma eligible_of_mem_scan {P : List ℚ} {w i : ℕ}
    (hi : i ∈ List.range' w (P.length - w - w)) :
    w ≤ i ∧ i + w < P.length := by
  rw [List.mem_range'_1] at hi
  omega

lemma gmm_eq_filter (P : List ℚ) (w : ℕ) (hw : 1 ≤ w) :
    get_min_max_indices P w =
      some ((List.range' w (P.length - w - w)).filter (maxTest P w),
            (List.range' w (P.length - w - w)).filter (minTest P w)) := by
  apply gmmGo_eq_filter
  intro i hi
  obtain ⟨h1, h2⟩ := eligible_of_mem_scan hi
  constructor
  · rw [is_local_maxima_eligible P w i hw h1 h2]
    rfl
  · rw [is_local_minima_eligible P w i hw h1 h2]
    rfl

/-! ### Concrete example data used by witnesses and counterexamples -/

/-- An 11-sample price series whose window-1 extrema alternate:
maxima at indices 1, 3, 5, 7, 9 and minima at 2, 4, 6, 8. -/
def pricesEx : List ℚ := [0, 100, 50, 104, 60, 105, 48, 106, 47, 107, 0]

/-- Distance thresholds of 1 for every pair. -/
def dtEx : DistanceThresholds :=
  { a_b := some 1, b_c := some 1, c_d := some 1, d_e := some 1 }

/-- Complete price thresholds of 1/10 for every pair. -/
def ptEx : PriceThresholds :=
  { a_b := some (1 / 10), b_c := some (1 / 10), a_c := some (1 / 10),
    c_d := some (1 / 10), b_d := some (1 / 10), d_e := some (1 / 10) }

/-- Same as `ptEx` with a tighter a↔c band threshold. -/
def ptExNarrow : PriceThresholds :=
  { a_b := some (1 / 10), b_c := some (1 / 10), a_c := some (1 / 100),
    c_d := some (1 / 10), b_d := some (1 / 10), d_e := some (1 / 10) }

/-- A price-threshold dictionary with every key missing. -/
def ptEmpty : PriceThresholds :=
  { a_b := none, b_c := none, a_c := none, c_d := none, b_d := none, d_e := none }

/-- C2: for window size ≥ 1 and an index in the eligible range
[windowSize, N − windowSize), `get_min_max_indices` classifies the index as
a local maximum iff its price strictly exceeds every price in the left
window `prices[i−w .. i)` and in the right window `prices[i+1 .. i+w+1)`,
and as a local minimum iff its price is strictly below every price of both
windows. -/
theorem C2_local_extrema_characterization (P : List ℚ) (w i : ℕ) (mx mn : List ℕ)
    (hw : 1 ≤ w) (hwi : w ≤ i) (hiN : i + w < P.length)
    (hgmm : get_min_max_indices P w = some (mx, mn)) :
    (i ∈ mx ↔ ((∀ j, i - w ≤ j → j < i → price P j < price P i) ∧
               (∀ j, i + 1 ≤ j → j < i + w + 1 → price P j < price P i))) ∧
    (i ∈ mn ↔ ((∀ j, i - w ≤ j → j < i → price P i < price P j) ∧
               (∀ j, i + 1 ≤ j → j < i + w + 1 → price P i < price P j))) := by
  rw [gmm_eq_filter P w hw] at hgmm
  simp only [Option.some.injEq, Prod.mk.injEq] at hgmm
  obtain ⟨hmx, hmn⟩ := hgmm
  subst hmx
  subst hmn
  have hmem : i ∈ List.range' w (P.length - w - w) := by
    rw [List.mem_range'_1]
    omega
  constructor
  · rw [List.mem_filter]
    simp only [hmem, true_and]
    unfold maxTest
    rw [is_local_maxima_eligible P w i hw hwi hiN]
    simp only [Option.getD_some, decide_eq_true_eq]
  · rw [List.mem_filter]
    simp only [hmem, true_and]
    unfold minTest
    rw [is_local_minima_eligible P w i hw hwi hiN]
    simp only [Option.getD_some, decide_eq_true_eq]

/-- Witness for C2 at the concrete series `pricesEx`, window 1, index 1. -/
theorem C2_witness :
    ((1 : ℕ) ∈ [1, 3, 5, 7, 9] ↔
      ((∀ j, 1 - 1 ≤ j → j < 1 → price pricesEx j < price pricesEx 1) ∧
       (∀ j, 1 + 1 ≤ j → j < 1 + 1 + 1 → price pricesEx j < price pricesEx 1))) ∧
    ((1 : ℕ) ∈ [2, 4, 6, 8] ↔
      ((∀ j, 1 - 1 ≤ j → j < 1 → price pricesEx 1 < price pricesEx j) ∧
       (∀ j, 1 + 1 ≤ j → j < 1 + 1 + 1 → price pricesEx 1 < price pricesEx j))) :=
  C2_local_extrema_characterization pricesEx 1 1 [1, 3, 5, 7, 9] [2, 4, 6, 8]
    (by decide) (by decide) (by decide) (by decide)

lemma length_filter_add_length_filter_le (l : List ℕ) (p q : ℕ → Bool)
    (h : ∀ x ∈ l, ¬(p x = true ∧ q x = true)) :
    (l.filter p).length + (l.filter q).length ≤ l.length := by
  induction l with
  | nil => simp
  | cons x rest ih =>
    have hx := h x (List.mem_cons_self x rest)
    have ih2 := ih fun y hy => h y (List.mem_cons_of_mem x hy)
    rw [List.filter_cons, List.filter_cons]
    cases hp : p x with
    | true =>
      cases hq : q x with
      | true => exact absurd ⟨hp, hq⟩ hx
      | false =>
        simp only [hp, hq, if_true, if_false, List.length_cons, List.length_cons]
        simp only [Bool.false_eq_true, if_false]
        omega
    | false =>
      cases hq : q x with
      | true =>
        simp only [hp, hq, if_true, Bool.false_eq_true, if_false, List.length_cons]
        omega
      | false =>
        simp only [hp, hq, Bool.false_eq_true, if_false, List.length_cons]
        omega

lemma not_max_and_min {P : List ℚ} {w i : ℕ} (hw : 1 ≤ w) (hwi : w ≤ i)
    (hiN : i + w < P.length) (hmax : maxTest P w i = true)
    (hmin : minTest P w i = true) : False := by
  unfold maxTest at hmax
  unfold minTest at hmin
  rw [is_local_maxima_eligible P w i hw hwi hiN] at hmax
  rw [is_local_minima_eligible P w i hw hwi hiN] at hmin
  simp only [Option.getD_some, decide_eq_true_eq] at hmax hmin
  have h1 := hmax.1 (i - w) (le_refl _) (by omega)
  have h2 := hmin.1 (i - w) (le_refl _) (by omega)
  exact lt_asymm h1 h2

/-- C3 (amended): for windowSize ≥ 1 the two lists are strictly increasing,
mutually disjoint, contain only indices of the eligible range
[windowSize, N − windowSize), and their combined length is at most
max(0, N − 2·windowSize) (for N < 2·windowSize both lists are empty, so the
bound N − 2·windowSize read over ℤ fails there and is clamped at 0). -/
theorem C3_extrema_invariants (P : List ℚ) (w : ℕ) (mx mn : List ℕ)
    (hw : 1 ≤ w) (hgmm : get_min_max_indices P w = some (mx, mn)) :
    mx.Pairwise (· < ·) ∧ mn.Pairwise (· < ·) ∧
    (∀ i ∈ mx, i ∉ mn) ∧
    (∀ i ∈ mx, w ≤ i ∧ i + w < P.length) ∧
    (∀ i ∈ mn, w ≤ i ∧ i + w < P.length) ∧
    ((mx.length : ℤ) + (mn.length : ℤ) ≤ max 0 ((P.length : ℤ) - 2 * (w : ℤ))) := by
  rw [gmm_eq_filter P w hw] at hgmm
  simp only [Option.some.injEq, Prod.mk.injEq] at hgmm
  obtain ⟨hmx, hmn⟩ := hgmm
  subst hmx
  subst hmn
  have hsorted : (List.range' w (P.length - w - w)).Pairwise (· < ·) :=
    List.pairwise_lt_range' w (P.length - w - w)
  refine ⟨hsorted.sublist (List.filter_sublist _) |>.imp id |>.imp id, ?_, ?_, ?_, ?_, ?_⟩
  · exact hsorted.sublist (List.filter_sublist _)
  · intro i hi hin
    obtain ⟨hmem1, htest1⟩ := List.mem_filter.mp hi
    obtain ⟨_, htest2⟩ := List.mem_filter.mp hin
    obtain ⟨h1, h2⟩ := eligible_of_mem_scan hmem1
    exact not_max_and_min hw h1 h2 htest1 htest2
  · intro i hi
    exact eligible_of_mem_scan (List.mem_filter.mp hi).1
  · intro i hi
    exact eligible_of_mem_scan (List.mem_filter.mp hi).1
  · have hlen := length_filter_add_length_filter_le
      (List.range' w (P.length - w - w)) (maxTest P w) (minTest P w)
      (fun x hx hboth => by
        obtain ⟨h1, h2⟩ := eligible_of_mem_scan hx
        exact not_max_and_min hw h1 h2 hboth.1 hboth.2)
    rw [List.length_range'] at hlen
    omega

/-- Counterexample to C3 as stated: for the empty series and windowSize 1
both output lists are empty, but the claimed bound reads
0 + 0 ≤ N − 2·windowSize = −2, which is false. -/
theorem C3_counterexample :
    get_min_max_indices ([] : List ℚ) 1 = some ([], []) ∧
    ¬((([] : List ℕ).length : ℤ) + (([] : List ℕ).length : ℤ) ≤
        (([] : List ℚ).length : ℤ) - 2 * 1) := by
  constructor
  · rfl
  · decide

/-- Witness for C3 at the concrete series `pricesEx`, window 1. -/
theorem C3_witness :
    ([1, 3, 5, 7, 9] : List ℕ).Pairwise (· < ·) ∧
    ([2, 4, 6, 8] : List ℕ).Pairwise (· < ·) ∧
    (∀ i ∈ ([1, 3, 5, 7, 9] : List ℕ), i ∉ ([2, 4, 6, 8] : List ℕ)) ∧
    (∀ i ∈ ([1, 3, 5, 7, 9] : List ℕ), 1 ≤ i ∧ i + 1 < pricesEx.length) ∧
    (∀ i ∈ ([2, 4, 6, 8] : List ℕ), 1 ≤ i ∧ i + 1 < pricesEx.length) ∧
    ((([1, 3, 5, 7, 9] : List ℕ).length : ℤ) + (([2, 4, 6, 8] : List ℕ).length : ℤ) ≤
      max 0 ((pricesEx.length : ℤ) - 2 * (1 : ℤ))) :=
  C3_extrema_invariants pricesEx 1 [1, 3, 5, 7, 9] [2, 4, 6, 8] (by decide) (by decide)

lemma gmm_empty_of_short (P : List ℚ) (w : ℕ) (hlen : P.length ≤ 2 * w) :
    get_min_max_indices P w = some ([], []) := by
  unfold get_min_max_indices
  rw [show P.length - w - w = 0 by omega]
  rfl

/-- C10: with windowSize = 0 the first scanned index is 0, whose left window
`prices[0:0]` is empty, so `max()` raises (modelled as `none`) for any
non-empty series; with windowSize ≥ 1 the scan always returns a result. -/
theorem C10_window_zero_crash :
    (∀ P : List ℚ, P ≠ [] → get_min_max_indices P 0 = none) ∧
    (∀ (P : List ℚ) (w : ℕ), 1 ≤ w → (get_min_max_indices P w).isSome = true) := by
  constructor
  · intro P hP
    obtain ⟨x, rest, rfl⟩ := List.exists_cons_of_ne_nil hP
    rfl
  · intro P w hw
    rw [gmm_eq_filter P w hw]
    rfl

/-- Witness for C10 at the length-1 series `[3]`. -/
theorem C10_witness :
    get_min_max_indices [(3 : ℚ)] 0 = none ∧
    (get_min_max_indices [(3 : ℚ)] 1).isSome = true :=
  ⟨C10_window_zero_crash.1 [(3 : ℚ)] (by decide),
   C10_window_zero_crash.2 [(3 : ℚ)] 1 (by decide)⟩

/-- C8: for windowSize ≥ 1 with 2·windowSize ≥ N (empty and length-1
series included) the scan returns two empty lists without error, and
`detect_cup_and_handle` (window 5) returns false without an exception on
any series of length at most 10. -/
theorem C8_short_sequences :
    (∀ (P : List ℚ) (w : ℕ), 1 ≤ w → P.length ≤ 2 * w →
      get_min_max_indices P w = some ([], [])) ∧
    (∀ P : List ℚ, P.length ≤ 10 → detect_cup_and_handle P = some false) := by
  constructor
  · intro P w _ hlen
    exact gmm_empty_of_short P w hlen
  · intro P hlen
    have h5 : get_min_max_indices P 5 = some ([], []) :=
      gmm_empty_of_short P 5 (by omega)
    unfold detect_cup_and_handle find_cup_and_handle_pattern
    rw [h5]
    rfl

/-- Witness for C8 at the length-1 series `[5]` with window 3. -/
theorem C8_witness :
    get_min_max_indices [(5 : ℚ)] 3 = some ([], []) ∧
    detect_cup_and_handle [(5 : ℚ)] = some false :=
  ⟨C8_short_sequences.1 [(5 : ℚ)] 3 (by decide) (by decide),
   C8_short_sequences.2 [(5 : ℚ)] (by decide)⟩

/-- C4: the wrapper `detect_cup_and_handle` is exactly the search with
window size 5, distance threshold 10 for every pair and price fraction
5/1000 = 0.005 for every pair, and it answers true iff the match list is
non-empty. -/
theorem C4_detect_wrapper (P : List ℚ) :
    (detect_cup_and_handle P =
      (find_cup_and_handle_pattern P 5
        (some { a_b := some (5 / 1000), b_c := some (5 / 1000), a_c := some (5 / 1000),
                c_d := some (5 / 1000), b_d := some (5 / 1000), d_e := some (5 / 1000) })
        (some { a_b := some 10, b_c := some 10, c_d := some 10, d_e := some 10 })).map
        fun l => decide (0 < l.length)) ∧
    ∀ l, find_cup_and_handle_pattern P 5 none none = some l →
      (detect_cup_and_handle P = some true ↔ l ≠ []) := by
  constructor
  · rfl
  · intro l hl
    unfold detect_cup_and_handle
    rw [hl]
    simp only [Option.map_some', Option.some.injEq, decide_eq_true_eq]
    exact List.length_pos

/-- Witness for C4 at the concrete series `pricesEx` (no match there). -/
theorem C4_witness :
    (detect_cup_and_handle pricesEx =
      (find_cup_and_handle_pattern pricesEx 5
        (some { a_b := some (5 / 1000), b_c := some (5 / 1000), a_c := some (5 / 1000),
                c_d := some (5 / 1000), b_d := some (5 / 1000), d_e := some (5 / 1000) })
        (some { a_b := some 10, b_c := some 10, c_d := some 10, d_e := some 10 })).map
        fun l => decide (0 < l.length)) ∧
    (detect_cup_and_handle pricesEx = some true ↔ ([] : List Pattern) ≠ []) :=
  ⟨(C4_detect_wrapper pricesEx).1,
   (C4_detect_wrapper pricesEx).2 [] (by decide)⟩

/-! ### Structure of the nested search loops -/

lemma loopE_mem {P : List ℚ} {pt : PriceThresholds} {dt : DistanceThresholds}
    {a b c d : ℕ} {es : List ℕ} {ps : List Pattern} {pat : Pattern}
    (h : loopE P pt dt a b c d es = some ps) (hpat : pat ∈ ps) :
    ∃ e, e ∈ es ∧ pat = (a, b, c, d, e) ∧ d < e ∧
      distance_is_valid d e dt DistPair.d_e = true ∧
      price_difference_is_valid (some a) (some b) (some c) (some d) (some e)
        P pt = some true := by
  induction es generalizing ps with
  | nil =>
    simp only [loopE, Option.some.injEq] at h
    subst h
    exact absurd hpat (List.not_mem_nil pat)
  | cons e rest ih =>
    simp only [loopE] at h
    by_cases hg : (decide (d < e) && distance_is_valid d e dt DistPair.d_e) = true
    · rw [if_pos hg] at h
      obtain ⟨hlt, hdist⟩ := Bool.and_eq_true_iff.mp hg
      obtain ⟨v, hv, h2⟩ := Option.bind_eq_some.mp h
      obtain ⟨tail, htail, h3⟩ := Option.bind_eq_some.mp h2
      simp only [Option.some.injEq] at h3
      subst h3
      cases v with
      | true =>
        simp only [if_true] at hpat
        rcases List.mem_cons.mp hpat with hp | hp
        · exact ⟨e, List.mem_cons_self e rest, hp, of_decide_eq_true hlt, hdist, hv⟩
        · obtain ⟨e2, he2, hrest⟩ := ih htail hp
          exact ⟨e2, List.mem_cons_of_mem e he2, hrest⟩
      | false =>
        simp only [if_false, Bool.false_eq_true] at hpat
        obtain ⟨e2, he2, hrest⟩ := ih htail hpat
        exact ⟨e2, List.mem_cons_of_mem e he2, hrest⟩
    · rw [if_neg hg] at h
      obtain ⟨e2, he2, hrest⟩ := ih h hpat
      exact ⟨e2, List.mem_cons_of_mem e he2, hrest⟩

lemma loopD_mem {P : List ℚ} {pt : PriceThresholds} {dt : DistanceThresholds}
    {maxima : List ℕ} {a b c : ℕ} {ds : List ℕ} {ps : List Pattern} {pat : Pattern}
    (h : loopD P pt dt maxima a b c ds = some ps) (hpat : pat ∈ ps) :
    ∃ d, d ∈ ds ∧ c < d ∧
      distance_is_valid c d dt DistPair.c_d = true ∧
      price_difference_is_valid (some a) (some b) (some c) (some d) none
        P pt = some true ∧
      ∃ block, loopE P pt dt a b c d maxima = some block ∧ pat ∈ block := by
  induction ds generalizing ps with
  | nil =>
    simp only [loopD, Option.some.injEq] at h
    subst h
    exact absurd hpat (List.not_mem_nil pat)
  | cons d rest ih =>
    simp only [loopD] at h
    by_cases hg : (decide (c < d) && distance_is_valid c d dt DistPair.c_d) = true
    · rw [if_pos hg] at h
      obtain ⟨hlt, hdist⟩ := Bool.and_eq_true_iff.mp hg
      obtain ⟨v, hv, h2⟩ := Option.bind_eq_some.mp h
      cases v with
      | true =>
        simp only [if_true] at h2
        obtain ⟨block, hblock, h3⟩ := Option.bind_eq_some.mp h2
        obtain ⟨tail, htail, h4⟩ := Option.bind_eq_some.mp h3
        simp only [Option.some.injEq] at h4
        subst h4
        rcases List.mem_append.mp hpat with hp | hp
        · exact ⟨d, List.mem_cons_self d rest, of_decide_eq_true hlt, hdist, hv,
            block, hblock, hp⟩
        · obtain ⟨d2, hd2, hrest⟩ := ih htail hp
          exact ⟨d2, List.mem_cons_of_mem d hd2, hrest⟩
      | false =>
        simp only [if_false, Bool.false_eq_true] at h2
        obtain ⟨d2, hd2, hrest⟩ := ih h2 hpat
        exact ⟨d2, List.mem_cons_of_mem d hd2, hrest⟩
    · rw [if_neg hg] at h
      obtain ⟨d2, hd2, hrest⟩ := ih h hpat
      exact ⟨d2, List.mem_cons_of_mem d hd2, hrest⟩

lemma loopC_mem {P : List ℚ} {pt : PriceThresholds} {dt : DistanceThresholds}
    {maxima minima : List ℕ} {a b : ℕ} {cs : List ℕ} {ps : List Pattern} {pat : Pattern}
    (h : loopC P pt dt maxima minima a b cs = some ps) (hpat : pat ∈ ps) :
    ∃ c, c ∈ cs ∧ b < c ∧
      distance_is_valid b c dt DistPair.b_c = true ∧
      price_difference_is_valid (some a) (some b) (some c) none none
        P pt = some true ∧
      ∃ block, loopD P pt dt maxima a b c minima = some block ∧ pat ∈ block := by
  induction cs generalizing ps with
  | nil =>
    simp only [loopC, Option.some.injEq] at h
    subst h
    exact absurd hpat (List.not_mem_nil pat)
  | cons c rest ih =>
    simp only [loopC] at h
    by_cases hg : (decide (b < c) && distance_is_valid b c dt DistPair.b_c) = true
    · rw [if_pos hg] at h
      obtain ⟨hlt, hdist⟩ := Bool.and_eq_true_iff.mp hg
      obtain ⟨v, hv, h2⟩ := Option.bind_eq_some.mp h
      cases v with
      | true =>
        simp only [if_true] at h2
        obtain ⟨block, hblock, h3⟩ := Option.bind_eq_some.mp h2
        obtain ⟨tail, htail, h4⟩ := Option.bind_eq_some.mp h3
        simp only [Option.some.injEq] at h4
        subst h4
        rcases List.mem_append.mp hpat with hp | hp
        · exact ⟨c, List.mem_cons_self c rest, of_decide_eq_true hlt, hdist, hv,
            block, hblock, hp⟩
        · obtain ⟨c2, hc2, hrest⟩ := ih htail hp
          exact ⟨c2, List.mem_cons_of_mem c hc2, hrest⟩
      | false =>
        simp only [if_false, Bool.false_eq_true] at h2
        obtain ⟨c2, hc2, hrest⟩ := ih h2 hpat
        exact ⟨c2, List.mem_cons_of_mem c hc2, hrest⟩
    · rw [if_neg hg] at h
      obtain ⟨c2, hc2, hrest⟩ := ih h hpat
      exact ⟨c2, List.mem_cons_of_mem c hc2, hrest⟩

lemma loopB_mem {P : List ℚ} {pt : PriceThresholds} {dt : DistanceThresholds}
    {maxima minima : List ℕ} {a : ℕ} {bs : List ℕ} {ps : List Pattern} {pat : Pattern}
    (h : loopB P pt dt maxima minima a bs = some ps) (hpat : pat ∈ ps) :
    ∃ b, b ∈ bs ∧ a < b ∧
      distance_is_valid a b dt DistPair.a_b = true ∧
      price_difference_is_valid (some a) (some b) none none none
        P pt = some true ∧
      ∃ block, loopC P pt dt maxima minima a b maxima = some block ∧ pat ∈ block := by
  induction bs generalizing ps with
  | nil =>
    simp only [loopB, Option.some.injEq] at h
    subst h
    exact absurd hpat (List.not_mem_nil pat)
  | cons b rest ih =>
    simp only [loopB] at h
    by_cases hg : (decide (a < b) && distance_is_valid a b dt DistPair.a_b) = true
    · rw [if_pos hg] at h
      obtain ⟨hlt, hdist⟩ := Bool.and_eq_true_iff.mp hg
      obtain ⟨v, hv, h2⟩ := Option.bind_eq_some.mp h
      cases v with
      | true =>
        simp only [if_true] at h2
        obtain ⟨block, hblock, h3⟩ := Option.bind_eq_some.mp h2
        obtain ⟨tail, htail, h4⟩ := Option.bind_eq_some.mp h3
        simp only [Option.some.injEq] at h4
        subst h4
        rcases List.mem_append.mp hpat with hp | hp
        · exact ⟨b, List.mem_cons_self b rest, of_decide_eq_true hlt, hdist, hv,
            block, hblock, hp⟩
        · obtain ⟨b2, hb2, hrest⟩ := ih htail hp
          exact ⟨b2, List.mem_cons_of_mem b hb2, hrest⟩
      | false =>
        simp only [if_false, Bool.false_eq_true] at h2
        obtain ⟨b2, hb2, hrest⟩ := ih h2 hpat
        exact ⟨b2, List.mem_cons_of_mem b hb2, hrest⟩
    · rw [if_neg hg] at h
      obtain ⟨b2, hb2, hrest⟩ := ih h hpat
      exact ⟨b2, List.mem_cons_of_mem b hb2, hrest⟩

lemma loopA_mem {P : List ℚ} {pt : PriceThresholds} {dt : DistanceThresholds}
    {maxima minima : List ℕ} {as2 : List ℕ} {ps : List Pattern} {pat : Pattern}
    (h : loopA P pt dt maxima minima as2 = some ps) (hpat : pat ∈ ps) :
    ∃ a, a ∈ as2 ∧
      ∃ block, loopB P pt dt maxima minima a minima = some block ∧ pat ∈ block := by
  induction as2 generalizing ps with
  | nil =>
    simp only [loopA, Option.some.injEq] at h
    subst h
    exact absurd hpat (List.not_mem_nil pat)
  | cons a rest ih =>
    simp only [loopA] at h
    obtain ⟨block, hblock, h2⟩ := Option.bind_eq_some.mp h
    obtain ⟨tail, htail, h3⟩ := Option.bind_eq_some.mp h2
    simp only [Option.some.injEq] at h3
    subst h3
    rcases List.mem_append.mp hpat with hp | hp
    · exact ⟨a, List.mem_cons_self a rest, block, hblock, hp⟩
    · obtain ⟨a2, ha2, hrest⟩ := ih htail hp
      exact ⟨a2, List.mem_cons_of_mem a ha2, hrest⟩

lemma distance_valid_elim {a b : ℕ} {dt : DistanceThresholds} {pair : DistPair}
    (h : distance_is_valid a b dt pair = true) :
    ∃ t, dtLookup dt pair = some t ∧ t ≤ ((((a : ℤ) - (b : ℤ)).natAbs : ℕ) : ℚ) := by
  unfold distance_is_valid at h
  cases hk : dtLookup dt pair with
  | none => rw [hk] at h; exact absurd h (by simp)
  | some t =>
    rw [hk] at h
    simp only [ge_iff_le, decide_eq_true_eq] at h
    exact ⟨t, rfl, h⟩

lemma natAbs_sub_of_lt {a b : ℕ} (h : a < b) : ((a : ℤ) - (b : ℤ)).natAbs = b - a := by
  omega

lemma pdv_full_true {P : List ℚ} {pt : PriceThresholds} {a b c d e : ℕ}
    (h : price_difference_is_valid (some a) (some b) (some c) (some d) (some e)
        P pt = some true) :
    (∃ t, pt.a_b = some t ∧ t * price P a < price P a - price P b) ∧
    (∃ t, pt.b_c = some t ∧ t * price P b < price P c - price P b) ∧
    (∃ t, pt.a_c = some t ∧ |price P c - price P a| < t * price P a) ∧
    (∃ t, pt.c_d = some t ∧ t * price P c < price P c - price P d) ∧
    (∃ t, pt.b_d = some t ∧ t * price P b < price P d - price P b) ∧
    (∃ t, pt.d_e = some t ∧ t * price P d < price P e - price P d) := by
  simp only [price_difference_is_valid, clause] at h
  obtain ⟨v1, hv1, h⟩ := Option.bind_eq_some.mp h
  obtain ⟨v2, hv2, h⟩ := Option.bind_eq_some.mp h
  obtain ⟨v3, hv3, h⟩ := Option.bind_eq_some.mp h
  obtain ⟨v4, hv4, h⟩ := Option.bind_eq_some.mp h
  obtain ⟨v5, hv5, h⟩ := Option.bind_eq_some.mp h
  obtain ⟨v6, hv6, h⟩ := Option.bind_eq_some.mp h
  simp only [Option.some.injEq] at h
  have hall : v1 = false ∧ v2 = false ∧ v3 = false ∧ v4 = false ∧ v5 = false ∧
      v6 = false := by
    cases v1 <;> cases v2 <;> cases v3 <;> cases v4 <;> cases v5 <;> cases v6 <;>
      simp_all
  obtain ⟨e1, e2, e3, e4, e5, e6⟩ := hall
  subst e1; subst e2; subst e3; subst e4; subst e5; subst e6
  obtain ⟨t1, ht1, hf1⟩ := Option.map_eq_some'.mp hv1
  obtain ⟨t2, ht2, hf2⟩ := Option.map_eq_some'.mp hv2
  obtain ⟨t3, ht3, hf3⟩ := Option.map_eq_some'.mp hv3
  obtain ⟨t4, ht4, hf4⟩ := Option.map_eq_some'.mp hv4
  obtain ⟨t5, ht5, hf5⟩ := Option.map_eq_some'.mp hv5
  obtain ⟨t6, ht6, hf6⟩ := Option.map_eq_some'.mp hv6
  refine ⟨⟨t1, ht1, ?_⟩, ⟨t2, ht2, ?_⟩, ⟨t3, ht3, ?_⟩, ⟨t4, ht4, ?_⟩,
    ⟨t5, ht5, ?_⟩, ⟨t6, ht6, ?_⟩⟩
  · unfold bad_ab at hf1
    simp only [decide_eq_false_iff_not, not_le] at hf1
    linarith
  · unfold bad_bc at hf2
    simp only [decide_eq_false_iff_not, not_le] at hf2
    linarith
  · unfold bad_ac at hf3
    simp only [decide_eq_false_iff_not, not_le] at hf3
    linarith
  · unfold bad_cd at hf4
    simp only [decide_eq_false_iff_not, not_le] at hf4
    linarith
  · unfold bad_bd at hf5
    simp only [decide_eq_false_iff_not, not_le] at hf5
    linarith
  · unfold bad_de at hf6
    simp only [decide_eq_false_iff_not, not_le] at hf6
    linarith

/-- C1: every quintuple (a,b,c,d,e) returned by the search has a<b<c<d<e
with a,c,e drawn from the maxima list and b,d from the minima list of that
call, every consecutive pair at index distance at least its configured
distance threshold, and all six price constraints holding strictly. -/
theorem C1_returned_patterns_sound (P : List ℚ) (w : ℕ)
    (ptOpt : Option PriceThresholds) (dtOpt : Option DistanceThresholds)
    (mx mn : List ℕ) (a b c d e : ℕ)
    (hgmm : get_min_max_indices P w = some (mx, mn))
    (hpat : (a, b, c, d, e) ∈ (find_cup_and_handle_pattern P w ptOpt dtOpt).getD []) :
    (a < b ∧ b < c ∧ c < d ∧ d < e) ∧
    (a ∈ mx ∧ c ∈ mx ∧ e ∈ mx ∧ b ∈ mn ∧ d ∈ mn) ∧
    (∃ t, (dtOpt.getD default_distance_thresholds).a_b = some t ∧
      t ≤ ((b - a : ℕ) : ℚ)) ∧
    (∃ t, (dtOpt.getD default_distance_thresholds).b_c = some t ∧
      t ≤ ((c - b : ℕ) : ℚ)) ∧
    (∃ t, (dtOpt.getD default_distance_thresholds).c_d = some t ∧
      t ≤ ((d - c : ℕ) : ℚ)) ∧
    (∃ t, (dtOpt.getD default_distance_thresholds).d_e = some t ∧
      t ≤ ((e - d : ℕ) : ℚ)) ∧
    (∃ t, (ptOpt.getD default_price_thresholds).a_b = some t ∧
      t * price P a < price P a - price P b) ∧
    (∃ t, (ptOpt.getD default_price_thresholds).b_c = some t ∧
      t * price P b < price P c - price P b) ∧
    (∃ t, (ptOpt.getD default_price_thresholds).a_c = some t ∧
      |price P c - price P a| < t * price P a) ∧
    (∃ t, (ptOpt.getD default_price_thresholds).c_d = some t ∧
      t * price P c < price P c - price P d) ∧
    (∃ t, (ptOpt.getD default_price_thresholds).b_d = some t ∧
      t * price P b < price P d - price P b) ∧
    (∃ t, (ptOpt.getD default_price_thresholds).d_e = some t ∧
      t * price P d < price P e - price P d) := by
  rcases hf : find_cup_and_handle_pattern P w ptOpt dtOpt with _ | ps
  · rw [hf] at hpat
    exact absurd hpat (List.not_mem_nil _)
  rw [hf] at hpat
  simp only [Option.getD_some] at hpat
  unfold find_cup_and_handle_pattern at hf
  rw [hgmm] at hf
  simp only [Option.some_bind] at hf
  obtain ⟨a2, ha2, blockB, hblockB, hpB⟩ := loopA_mem hf hpat
  obtain ⟨b2, hb2, hab, hdab, hpvab, blockC, hblockC, hpC⟩ := loopB_mem hblockB hpB
  obtain ⟨c2, hc2, hbc, hdbc, hpvbc, blockD, hblockD, hpD⟩ := loopC_mem hblockC hpC
  obtain ⟨d2, hd2, hcd, hdcd, hpvcd, blockE, hblockE, hpE⟩ := loopD_mem hblockD hpD
  obtain ⟨e2, he2, hpeq, hde, hdde, hpv⟩ := loopE_mem hblockE hpE
  simp only [Prod.mk.injEq] at hpeq
  obtain ⟨rfl, rfl, rfl, rfl, rfl⟩ := hpeq
  obtain ⟨hq1, hq2, hq3, hq4, hq5, hq6⟩ := pdv_full_true hpv
  refine ⟨⟨hab, hbc, hcd, hde⟩,
    ⟨List.take_subset _ _ ha2, hc2, he2, hb2, hd2⟩, ?_, ?_, ?_, ?_,
    hq1, hq2, hq3, hq4, hq5, hq6⟩
  · obtain ⟨t, ht, hle⟩ := distance_valid_elim hdab
    refine ⟨t, ht, ?_⟩
    rwa [natAbs_sub_of_lt hab] at hle
  · obtain ⟨t, ht, hle⟩ := distance_valid_elim hdbc
    refine ⟨t, ht, ?_⟩
    rwa [natAbs_sub_of_lt hbc] at hle
  · obtain ⟨t, ht, hle⟩ := distance_valid_elim hdcd
    refine ⟨t, ht, ?_⟩
    rwa [natAbs_sub_of_lt hcd] at hle
  · obtain ⟨t, ht, hle⟩ := distance_valid_elim hdde
    refine ⟨t, ht, ?_⟩
    rwa [natAbs_sub_of_lt hde] at hle

/-- Witness for C1: the quintuple (1,2,3,4,5) returned on `pricesEx`. -/
theorem C1_witness :
    ((1 : ℕ) < 2 ∧ (2 : ℕ) < 3 ∧ (3 : ℕ) < 4 ∧ (4 : ℕ) < 5) ∧
    ((1 : ℕ) ∈ [1, 3, 5, 7, 9] ∧ (3 : ℕ) ∈ [1, 3, 5, 7, 9] ∧
     (5 : ℕ) ∈ [1, 3, 5, 7, 9] ∧ (2 : ℕ) ∈ [2, 4, 6, 8] ∧ (4 : ℕ) ∈ [2, 4, 6, 8]) ∧
    (∃ t, dtEx.a_b = some t ∧ t ≤ ((2 - 1 : ℕ) : ℚ)) ∧
    (∃ t, dtEx.b_c = some t ∧ t ≤ ((3 - 2 : ℕ) : ℚ)) ∧
    (∃ t, dtEx.c_d = some t ∧ t ≤ ((4 - 3 : ℕ) : ℚ)) ∧
    (∃ t, dtEx.d_e = some t ∧ t ≤ ((5 - 4 : ℕ) : ℚ)) ∧
    (∃ t, ptEx.a_b = some t ∧
      t * price pricesEx 1 < price pricesEx 1 - price pricesEx 2) ∧
    (∃ t, ptEx.b_c = some t ∧
      t * price pricesEx 2 < price pricesEx 3 - price pricesEx 2) ∧
    (∃ t, ptEx.a_c = some t ∧
      |price pricesEx 3 - price pricesEx 1| < t * price pricesEx 1) ∧
    (∃ t, ptEx.c_d = some t ∧
      t * price pricesEx 3 < price pricesEx 3 - price pricesEx 4) ∧
    (∃ t, ptEx.b_d = some t ∧
      t * price pricesEx 2 < price pricesEx 4 - price pricesEx 2) ∧
    (∃ t, ptEx.d_e = some t ∧
      t * price pricesEx 4 < price pricesEx 5 - price pricesEx 4) :=
  C1_returned_patterns_sound pricesEx 1 (some ptEx) (some dtEx)
    [1, 3, 5, 7, 9] [2, 4, 6, 8] 1 2 3 4 5 (by decide)
    (by with_unfolding_all decide)

lemma gmmGo_maxima_sorted {P : List ℚ} {w : ℕ} {l mx mn : List ℕ}
    (h : gmmGo P w l = some (mx, mn)) (hs : l.Pairwise (· < ·)) :
    mx.Pairwise (· < ·) ∧ ∀ i ∈ mx, i ∈ l := by
  induction l generalizing mx mn with
  | nil =>
    simp only [gmmGo, Option.some.injEq, Prod.mk.injEq] at h
    obtain ⟨h1, _⟩ := h
    subst h1
    exact ⟨List.Pairwise.nil, by simp⟩
  | cons i rest ih =>
    rw [show gmmGo P w (i :: rest) =
        (is_local_maxima i P w).bind fun bmax =>
        (is_local_minima i P w).bind fun bmin =>
        (gmmGo P w rest).bind fun mxmn =>
        some ((if bmax then i :: mxmn.1 else mxmn.1),
              (if bmin then i :: mxmn.2 else mxmn.2)) from rfl] at h
    obtain ⟨bmax, _, h⟩ := Option.bind_eq_some.mp h
    obtain ⟨bmin, _, h⟩ := Option.bind_eq_some.mp h
    obtain ⟨⟨mx2, mn2⟩, hrest, h⟩ := Option.bind_eq_some.mp h
    simp only [Option.some.injEq, Prod.mk.injEq] at h
    obtain ⟨h1, _⟩ := h
    obtain ⟨hsorted2, hsub2⟩ := ih hrest (List.Pairwise.sublist (List.sublist_cons_self i rest) hs)
    subst h1
    cases bmax with
    | true =>
      simp only [if_true]
      refine ⟨List.Pairwise.cons ?_ hsorted2, ?_⟩
      · intro j hj
        exact (List.pairwise_cons.mp hs).1 j (hsub2 j hj)
      · intro j hj
        rcases List.mem_cons.mp hj with hj | hj
        · exact hj ▸ List.mem_cons_self i rest
        · exact List.mem_cons_of_mem i (hsub2 j hj)
    | false =>
      simp only [Bool.false_eq_true, if_false]
      exact ⟨hsorted2, fun j hj => List.mem_cons_of_mem i (hsub2 j hj)⟩

lemma loopB_first {P : List ℚ} {pt : PriceThresholds} {dt : DistanceThresholds}
    {maxima minima : List ℕ} {a : ℕ} {bs : List ℕ} {ps : List Pattern} {pat : Pattern}
    (h : loopB P pt dt maxima minima a bs = some ps) (hpat : pat ∈ ps) :
    pat.1 = a := by
  obtain ⟨b2, _, _, _, _, blockC, hbc, hpc⟩ := loopB_mem h hpat
  obtain ⟨c2, _, _, _, _, blockD, hbd, hpd⟩ := loopC_mem hbc hpc
  obtain ⟨d2, _, _, _, _, blockE, hbe, hpe⟩ := loopD_mem hbd hpd
  obtain ⟨e2, _, hpeq, _⟩ := loopE_mem hbe hpe
  rw [hpeq]

lemma pairwise_first_eq {l : List Pattern} {a : ℕ} (h : ∀ p ∈ l, p.1 = a) :
    l.Pairwise (fun p q : Pattern => p.1 ≤ q.1) := by
  induction l with
  | nil => exact List.Pairwise.nil
  | cons x rest ih =>
    refine List.Pairwise.cons ?_ (ih fun p hp => h p (List.mem_cons_of_mem x hp))
    intro q hq
    rw [h x (List.mem_cons_self x rest), h q (List.mem_cons_of_mem x hq)]

lemma loopA_pairwise_first {P : List ℚ} {pt : PriceThresholds} {dt : DistanceThresholds}
    {maxima minima : List ℕ} {as2 : List ℕ} {ps : List Pattern}
    (h : loopA P pt dt maxima minima as2 = some ps) (hs : as2.Pairwise (· < ·)) :
    ps.Pairwise (fun p q : Pattern => p.1 ≤ q.1) := by
  induction as2 generalizing ps with
  | nil =>
    simp only [loopA, Option.some.injEq] at h
    subst h
    exact List.Pairwise.nil
  | cons a rest ih =>
    simp only [loopA] at h
    obtain ⟨block, hblock, h2⟩ := Option.bind_eq_some.mp h
    obtain ⟨tail, htail, h3⟩ := Option.bind_eq_some.mp h2
    simp only [Option.some.injEq] at h3
    subst h3
    rw [List.pairwise_append]
    refine ⟨pairwise_first_eq fun p hp => loopB_first hblock hp,
      ih htail (List.Pairwise.sublist (List.sublist_cons_self a rest) hs), ?_⟩
    intro p hp q hq
    obtain ⟨a2, ha2, blockB, hblockB, hqB⟩ := loopA_mem htail hq
    rw [loopB_first hblock hp, loopB_first hblockB hqB]
    exact le_of_lt ((List.pairwise_cons.mp hs).1 a2 ha2)

/-- C7: the outer loop uses as candidate a only the first len(maxima) − 4
entries of the maxima list, in ascending order (the first components of the
output are non-decreasing); a quintuple whose a lies among the last four
maxima is never produced. -/
theorem C7_outer_loop_prefilter (P : List ℚ) (w : ℕ)
    (ptOpt : Option PriceThresholds) (dtOpt : Option DistanceThresholds) :
    (∀ mx mn : List ℕ, get_min_max_indices P w = some (mx, mn) →
      ∀ pat : Pattern, pat ∈ (find_cup_and_handle_pattern P w ptOpt dtOpt).getD [] →
        pat.1 ∈ mx.take (mx.length - 4) ∧ pat.1 ∉ mx.drop (mx.length - 4)) ∧
    ((find_cup_and_handle_pattern P w ptOpt dtOpt).getD []).Pairwise
      (fun p q : Pattern => p.1 ≤ q.1) := by
  constructor
  · intro mx mn hgmm pat hpat
    rcases hf : find_cup_and_handle_pattern P w ptOpt dtOpt with _ | ps
    · rw [hf] at hpat
      exact absurd hpat (List.not_mem_nil _)
    rw [hf] at hpat
    simp only [Option.getD_some] at hpat
    unfold find_cup_and_handle_pattern at hf
    rw [hgmm] at hf
    simp only [Option.some_bind] at hf
    obtain ⟨a2, ha2, blockB, hblockB, hpB⟩ := loopA_mem hf hpat
    have hfirst : pat.1 = a2 := loopB_first hblockB hpB
    have hsorted : mx.Pairwise (· < ·) :=
      (gmmGo_maxima_sorted hgmm
        (List.pairwise_lt_range' w (P.length - w - w))).1
    have hnodup : mx.Nodup := hsorted.imp Nat.ne_of_lt
    have hsplit := List.take_append_drop (mx.length - 4) mx
    rw [← hsplit] at hnodup
    have hdisj := (List.nodup_append.mp hnodup).2.2
    refine ⟨hfirst ▸ ha2, fun hdrop => ?_⟩
    exact hdisj (hfirst ▸ ha2) hdrop
  · rcases hf : find_cup_and_handle_pattern P w ptOpt dtOpt with _ | ps
    · exact List.Pairwise.nil
    simp only [Option.getD_some]
    unfold find_cup_and_handle_pattern at hf
    rcases hgmm : get_min_max_indices P w with _ | ⟨mx, mn⟩
    · rw [hgmm] at hf
      exact absurd hf (by simp)
    rw [hgmm] at hf
    simp only [Option.some_bind] at hf
    have hsorted : mx.Pairwise (· < ·) :=
      (gmmGo_maxima_sorted hgmm
        (List.pairwise_lt_range' w (P.length - w - w))).1
    exact loopA_pairwise_first hf
      (hsorted.sublist (List.take_sublist _ _))

/-- Witness for C7 on `pricesEx`: the match (1,2,3,4,5) has its a-point in
the one-element prefix of the maxima list and not among the last four. -/
theorem C7_witness :
    (((1, 2, 3, 4, 5) : Pattern).1 ∈ ([1] : List ℕ) ∧
     ((1, 2, 3, 4, 5) : Pattern).1 ∉ ([3, 5, 7, 9] : List ℕ)) ∧
    ((find_cup_and_handle_pattern pricesEx 1 (some ptEx) (some dtEx)).getD []).Pairwise
      (fun p q : Pattern => p.1 ≤ q.1) :=
  ⟨(C7_outer_loop_prefilter pricesEx 1 (some ptEx) (some dtEx)).1
      [1, 3, 5, 7, 9] [2, 4, 6, 8] (by decide) (1, 2, 3, 4, 5)
      (by with_unfolding_all decide),
   (C7_outer_loop_prefilter pricesEx 1 (some ptEx) (some dtEx)).2⟩

/-! ### Totality of the search under a complete price-threshold dictionary -/

lemma clause_isSome_of_some (P : List ℚ) (x y : Option ℕ) (t : ℚ)
    (bad : ℚ → ℚ → ℚ → Bool) : (clause P x y (some t) bad).isSome = true := by
  cases x <;> cases y <;> simp [clause]

lemma pdv_isSome {pt : PriceThresholds} (hc : completePT pt) (P : List ℚ)
    (a b c d e : Option ℕ) :
    (price_difference_is_valid a b c d e P pt).isSome = true := by
  obtain ⟨h1, h2, h3, h4, h5, h6⟩ := hc
  obtain ⟨t1, ht1⟩ := Option.isSome_iff_exists.mp h1
  obtain ⟨t2, ht2⟩ := Option.isSome_iff_exists.mp h2
  obtain ⟨t3, ht3⟩ := Option.isSome_iff_exists.mp h3
  obtain ⟨t4, ht4⟩ := Option.isSome_iff_exists.mp h4
  obtain ⟨t5, ht5⟩ := Option.isSome_iff_exists.mp h5
  obtain ⟨t6, ht6⟩ := Option.isSome_iff_exists.mp h6
  unfold price_difference_is_valid
  rw [ht1, ht2, ht3, ht4, ht5, ht6]
  obtain ⟨v1, hv1⟩ := Option.isSome_iff_exists.mp (clause_isSome_of_some P a b t1 bad_ab)
  rw [hv1, Option.some_bind]
  obtain ⟨v2, hv2⟩ := Option.isSome_iff_exists.mp (clause_isSome_of_some P b c t2 bad_bc)
  rw [hv2, Option.some_bind]
  obtain ⟨v3, hv3⟩ := Option.isSome_iff_exists.mp (clause_isSome_of_some P a c t3 bad_ac)
  rw [hv3, Option.some_bind]
  obtain ⟨v4, hv4⟩ := Option.isSome_iff_exists.mp (clause_isSome_of_some P c d t4 bad_cd)
  rw [hv4, Option.some_bind]
  obtain ⟨v5, hv5⟩ := Option.isSome_iff_exists.mp (clause_isSome_of_some P b d t5 bad_bd)
  rw [hv5, Option.some_bind]
  obtain ⟨v6, hv6⟩ := Option.isSome_iff_exists.mp (clause_isSome_of_some P d e t6 bad_de)
  rw [hv6, Option.some_bind]
  rfl

lemma loopE_total {P : List ℚ} {pt : PriceThresholds} {dt : DistanceThresholds}
    {a b c d : ℕ} (hc : completePT pt) (es : List ℕ) :
    (loopE P pt dt a b c d es).isSome = true := by
  induction es with
  | nil => rfl
  | cons e rest ih =>
    simp only [loopE]
    by_cases hg : (decide (d < e) && distance_is_valid d e dt DistPair.d_e) = true
    · rw [if_pos hg]
      obtain ⟨v, hv⟩ := Option.isSome_iff_exists.mp
        (pdv_isSome hc P (some a) (some b) (some c) (some d) (some e))
      rw [hv, Option.some_bind]
      obtain ⟨tail, htail⟩ := Option.isSome_iff_exists.mp ih
      rw [htail, Option.some_bind]
      rfl
    · rw [if_neg hg]
      exact ih

lemma loopD_total {P : List ℚ} {pt : PriceThresholds} {dt : DistanceThresholds}
    {maxima : List ℕ} {a b c : ℕ} (hc : completePT pt) (ds : List ℕ) :
    (loopD P pt dt maxima a b c ds).isSome = true := by
  induction ds with
  | nil => rfl
  | cons d rest ih =>
    simp only [loopD]
    by_cases hg : (decide (c < d) && distance_is_valid c d dt DistPair.c_d) = true
    · rw [if_pos hg]
      obtain ⟨v, hv⟩ := Option.isSome_iff_exists.mp
        (pdv_isSome hc P (some a) (some b) (some c) (some d) none)
      rw [hv, Option.some_bind]
      cases v with
      | true =>
        simp only [if_true]
        obtain ⟨block, hblock⟩ := Option.isSome_iff_exists.mp (loopE_total hc maxima)
        rw [hblock, Option.some_bind]
        obtain ⟨tail, htail⟩ := Option.isSome_iff_exists.mp ih
        rw [htail, Option.some_bind]
        rfl
      | false =>
        simp only [Bool.false_eq_true, if_false]
        exact ih
    · rw [if_neg hg]
      exact ih

lemma loopC_total {P : List ℚ} {pt : PriceThresholds} {dt : DistanceThresholds}
    {maxima minima : List ℕ} {a b : ℕ} (hc : completePT pt) (cs : List ℕ) :
    (loopC P pt dt maxima minima a b cs).isSome = true := by
  induction cs with
  | nil => rfl
  | cons c rest ih =>
    simp only [loopC]
    by_cases hg : (decide (b < c) && distance_is_valid b c dt DistPair.b_c) = true
    · rw [if_pos hg]
      obtain ⟨v, hv⟩ := Option.isSome_iff_exists.mp
        (pdv_isSome hc P (some a) (some b) (some c) none none)
      rw [hv, Option.some_bind]
      cases v with
      | true =>
        simp only [if_true]
        obtain ⟨block, hblock⟩ := Option.isSome_iff_exists.mp (loopD_total hc minima)
        rw [hblock, Option.some_bind]
        obtain ⟨tail, htail⟩ := Option.isSome_iff_exists.mp ih
        rw [htail, Option.some_bind]
        rfl
      | false =>
        simp only [Bool.false_eq_true, if_false]
        exact ih
    · rw [if_neg hg]
      exact ih

lemma loopB_total {P : List ℚ} {pt : PriceThresholds} {dt : DistanceThresholds}
    {maxima minima : List ℕ} {a : ℕ} (hc : completePT pt) (bs : List ℕ) :
    (loopB P pt dt maxima minima a bs).isSome = true := by
  induction bs with
  | nil => rfl
  | cons b rest ih =>
    simp only [loopB]
    by_cases hg : (decide (a < b) && distance_is_valid a b dt DistPair.a_b) = true
    · rw [if_pos hg]
      obtain ⟨v, hv⟩ := Option.isSome_iff_exists.mp
        (pdv_isSome hc P (some a) (some b) none none none)
      rw [hv, Option.some_bind]
      cases v with
      | true =>
        simp only [if_true]
        obtain ⟨block, hblock⟩ := Option.isSome_iff_exists.mp (loopC_total hc maxima)
        rw [hblock, Option.some_bind]
        obtain ⟨tail, htail⟩ := Option.isSome_iff_exists.mp ih
        rw [htail, Option.some_bind]
        rfl
      | false =>
        simp only [Bool.false_eq_true, if_false]
        exact ih
    · rw [if_neg hg]
      exact ih

lemma loopA_total {P : List ℚ} {pt : PriceThresholds} {dt : DistanceThresholds}
    {maxima minima : List ℕ} (hc : completePT pt) (as2 : List ℕ) :
    (loopA P pt dt maxima minima as2).isSome = true := by
  induction as2 with
  | nil => rfl
  | cons a rest ih =>
    simp only [loopA]
    obtain ⟨block, hblock⟩ := Option.isSome_iff_exists.mp (loopB_total hc minima)
    rw [hblock, Option.some_bind]
    obtain ⟨tail, htail⟩ := Option.isSome_iff_exists.mp ih
    rw [htail, Option.some_bind]
    rfl

lemma find_isSome {P : List ℚ} {w : ℕ} {pt : PriceThresholds}
    {dtOpt : Option DistanceThresholds} (hw : 1 ≤ w) (hc : completePT pt) :
    (find_cup_and_handle_pattern P w (some pt) dtOpt).isSome = true := by
  unfold find_cup_and_handle_pattern
  rw [gmm_eq_filter P w hw]
  simp only [Option.some_bind, Option.getD_some]
  exact loopA_total hc _

/-- An alternating series whose five local maxima all have price exactly 0:
every anchor price used by the search at point a (and c, e) is 0. -/
def pricesZero : List ℚ := [-5, 0, -6, 0, -7, 0, -8, 0, -9, 0, -10]

/-- C6 (amended): a missing distance-threshold key makes the pair
comparison evaluate False, so the candidate is skipped, and — as long as
the price-threshold dictionary is complete — the search completes without
exception; a missing price-threshold key, by contrast, is a `KeyError`
(see the counterexample). -/
theorem C6_missing_key_behavior :
    (∀ (a b : ℕ) (dt : DistanceThresholds) (pair : DistPair),
      dtLookup dt pair = none → distance_is_valid a b dt pair = false) ∧
    (∀ (P : List ℚ) (w : ℕ) (pt : PriceThresholds)
      (dtOpt : Option DistanceThresholds), 1 ≤ w → completePT pt →
      (find_cup_and_handle_pattern P w (some pt) dtOpt).isSome = true) := by
  constructor
  · intro a b dt pair hk
    unfold distance_is_valid
    rw [hk]
  · intro P w pt dtOpt hw hc
    exact find_isSome hw hc

/-- Counterexample to C6 as stated: with every price-threshold key missing
the search raises a `KeyError` (`none`) on `pricesEx` instead of skipping
the candidates, even though the distance thresholds are all present. -/
theorem C6_counterexample :
    find_cup_and_handle_pattern pricesEx 1 (some ptEmpty) (some dtEx) = none := by
  with_unfolding_all decide

/-- Witness for C6: a missing distance key yields False, and the search on
`pricesEx` with the complete dictionary `ptEx` completes. -/
theorem C6_witness :
    distance_is_valid 1 2
      { a_b := none, b_c := none, c_d := none, d_e := none } DistPair.a_b = false ∧
    (find_cup_and_handle_pattern pricesEx 1 (some ptEx) (some dtEx)).isSome = true :=
  ⟨C6_missing_key_behavior.1 1 2
      { a_b := none, b_c := none, c_d := none, d_e := none } DistPair.a_b rfl,
   C6_missing_key_behavior.2 pricesEx 1 ptEx (some dtEx) (by decide) (by decide)⟩

/-- C9: the implementation multiplies the threshold by the anchor price and
never divides, so a zero anchor cannot fault: with a complete
price-threshold dictionary the search always returns a result, and each
price comparison against a zero anchor evaluates with threshold × 0 = 0
(the band check |pc − pa| ≥ t·pa fires unconditionally at pa = 0). -/
theorem C9_zero_anchor :
    (∀ (P : List ℚ) (w : ℕ) (pt : PriceThresholds)
      (dtOpt : Option DistanceThresholds), 1 ≤ w → completePT pt →
      (find_cup_and_handle_pattern P w (some pt) dtOpt).isSome = true) ∧
    (∀ y t : ℚ,
      bad_ab 0 y t = decide ((0 : ℚ) - y ≤ 0) ∧
      bad_bc 0 y t = decide (y - 0 ≤ (0 : ℚ)) ∧
      bad_ac 0 y t = true ∧
      bad_cd 0 y t = decide ((0 : ℚ) - y ≤ 0) ∧
      bad_bd 0 y t = decide (y - 0 ≤ (0 : ℚ)) ∧
      bad_de 0 y t = decide (y - 0 ≤ (0 : ℚ))) := by
  constructor
  · intro P w pt dtOpt hw hc
    exact find_isSome hw hc
  · intro y t
    refine ⟨?_, ?_, ?_, ?_, ?_, ?_⟩
    · unfold bad_ab
      rw [mul_zero]
    · unfold bad_bc
      rw [mul_zero]
    · unfold bad_ac
      rw [mul_zero]
      exact decide_eq_true (abs_nonneg (y - 0))
    · unfold bad_cd
      rw [mul_zero]
    · unfold bad_bd
      rw [mul_zero]
    · unfold bad_de
      rw [mul_zero]

/-- Witness for C9 on `pricesZero`, whose maxima prices are all 0. -/
theorem C9_witness :
    (find_cup_and_handle_pattern pricesZero 1 (some ptEx) (some dtEx)).isSome = true ∧
    bad_ab 0 7 (1 / 10) = decide ((0 : ℚ) - 7 ≤ 0) :=
  ⟨C9_zero_anchor.1 pricesZero 1 ptEx (some dtEx) (by decide) (by decide),
   (C9_zero_anchor.2 7 (1 / 10)).1⟩

/-! ### Monotonicity in a single price threshold -/

lemma pdv_true_iff {P : List ℚ} {pt : PriceThresholds} {a b c d e : Option ℕ} :
    price_difference_is_valid a b c d e P pt = some true ↔
      clause P a b pt.a_b bad_ab = some false ∧
      clause P b c pt.b_c bad_bc = some false ∧
      clause P a c pt.a_c bad_ac = some false ∧
      clause P c d pt.c_d bad_cd = some false ∧
      clause P b d pt.b_d bad_bd = some false ∧
      clause P d e pt.d_e bad_de = some false := by
  constructor
  · intro h
    unfold price_difference_is_valid at h
    obtain ⟨v1, hv1, h⟩ := Option.bind_eq_some.mp h
    obtain ⟨v2, hv2, h⟩ := Option.bind_eq_some.mp h
    obtain ⟨v3, hv3, h⟩ := Option.bind_eq_some.mp h
    obtain ⟨v4, hv4, h⟩ := Option.bind_eq_some.mp h
    obtain ⟨v5, hv5, h⟩ := Option.bind_eq_some.mp h
    obtain ⟨v6, hv6, h⟩ := Option.bind_eq_some.mp h
    simp only [Option.some.injEq] at h
    have hall : v1 = false ∧ v2 = false ∧ v3 = false ∧ v4 = false ∧
        v5 = false ∧ v6 = false := by
      cases v1 <;> cases v2 <;> cases v3 <;> cases v4 <;> cases v5 <;> cases v6 <;>
        simp_all
    obtain ⟨e1, e2, e3, e4, e5, e6⟩ := hall
    subst e1; subst e2; subst e3; subst e4; subst e5; subst e6
    exact ⟨hv1, hv2, hv3, hv4, hv5, hv6⟩
  · rintro ⟨h1, h2, h3, h4, h5, h6⟩
    unfold price_difference_is_valid
    rw [h1, Option.some_bind, h2, Option.some_bind, h3, Option.some_bind,
      h4, Option.some_bind, h5, Option.some_bind, h6, Option.some_bind]
    rfl

lemma clause_false_mono {P : List ℚ} {x y : Option ℕ} {t1 t2 : ℚ}
    {bad : ℚ → ℚ → ℚ → Bool}
    (hbad : ∀ i j : ℕ, bad (price P i) (price P j) t2 = false →
      bad (price P i) (price P j) t1 = false)
    (h : clause P x y (some t2) bad = some false) :
    clause P x y (some t1) bad = some false := by
  cases x with
  | none => rfl
  | some i =>
    cases y with
    | none => rfl
    | some j =>
      simp only [clause, Option.map_some', Option.some.injEq] at h ⊢
      exact hbad i j h

lemma le_mul_anchor_mono {L anchor t1 t2 : ℚ} (h0 : 0 ≤ anchor) (htt : t1 ≤ t2)
    (h : ¬(L ≤ t2 * anchor)) : ¬(L ≤ t1 * anchor) := by
  have := mul_le_mul_of_nonneg_right htt h0
  intro hc
  exact h (by linarith)

lemma bad_ab_mono {pa pb t1 t2 : ℚ} (h0 : 0 ≤ pa) (htt : t1 ≤ t2)
    (h : bad_ab pa pb t2 = false) : bad_ab pa pb t1 = false := by
  unfold bad_ab at h ⊢
  simp only [decide_eq_false_iff_not] at h ⊢
  exact le_mul_anchor_mono h0 htt h

lemma bad_bc_mono {pb pc t1 t2 : ℚ} (h0 : 0 ≤ pb) (htt : t1 ≤ t2)
    (h : bad_bc pb pc t2 = false) : bad_bc pb pc t1 = false := by
  unfold bad_bc at h ⊢
  simp only [decide_eq_false_iff_not] at h ⊢
  exact le_mul_anchor_mono h0 htt h

lemma bad_cd_mono {pc pd t1 t2 : ℚ} (h0 : 0 ≤ pc) (htt : t1 ≤ t2)
    (h : bad_cd pc pd t2 = false) : bad_cd pc pd t1 = false := by
  unfold bad_cd at h ⊢
  simp only [decide_eq_false_iff_not] at h ⊢
  exact le_mul_anchor_mono h0 htt h

lemma bad_bd_mono {pb pd t1 t2 : ℚ} (h0 : 0 ≤ pb) (htt : t1 ≤ t2)
    (h : bad_bd pb pd t2 = false) : bad_bd pb pd t1 = false := by
  unfold bad_bd at h ⊢
  simp only [decide_eq_false_iff_not] at h ⊢
  exact le_mul_anchor_mono h0 htt h

lemma bad_de_mono {pd pe t1 t2 : ℚ} (h0 : 0 ≤ pd) (htt : t1 ≤ t2)
    (h : bad_de pd pe t2 = false) : bad_de pd pe t1 = false := by
  unfold bad_de at h ⊢
  simp only [decide_eq_false_iff_not] at h ⊢
  exact le_mul_anchor_mono h0 htt h

lemma bad_ac_mono {pa pc t1 t2 : ℚ} (h0 : 0 ≤ pa) (htt : t1 ≤ t2)
    (h : bad_ac pa pc t1 = false) : bad_ac pa pc t2 = false := by
  unfold bad_ac at h ⊢
  simp only [decide_eq_false_iff_not, not_le] at h ⊢
  have := mul_le_mul_of_nonneg_right htt h0
  linarith

lemma price_nonneg {P : List ℚ} (hP : ∀ x ∈ P, 0 ≤ x) (i : ℕ) :
    0 ≤ price P i := by
  unfold price
  by_cases h : i < P.length
  · rw [List.getD_eq_getElem?_getD, List.getElem?_eq_getElem h]
    exact hP _ (List.getElem_mem h)
  · rw [List.getD_eq_getElem?_getD, List.getElem?_eq_none (by omega)]
    exact le_refl 0

lemma completePT_ptSet {pt : PriceThresholds} (hc : completePT pt)
    (k : PricePair) (v : ℚ) : completePT (ptSet pt k v) := by
  obtain ⟨h1, h2, h3, h4, h5, h6⟩ := hc
  cases k <;> exact ⟨by simp_all [ptSet], by simp_all [ptSet], by simp_all [ptSet],
    by simp_all [ptSet], by simp_all [ptSet], by simp_all [ptSet]⟩

lemma pdv_mono_lower {P : List ℚ} {pt : PriceThresholds} {k : PricePair}
    {t t' : ℚ} (hk : k ≠ PricePair.a_c) (hP : ∀ x ∈ P, 0 ≤ x) (htt : t ≤ t')
    (a b c d e : Option ℕ)
    (h : price_difference_is_valid a b c d e P (ptSet pt k t') = some true) :
    price_difference_is_valid a b c d e P (ptSet pt k t) = some true := by
  rw [pdv_true_iff] at h ⊢
  obtain ⟨h1, h2, h3, h4, h5, h6⟩ := h
  cases k with
  | a_b =>
    exact ⟨clause_false_mono
        (fun i j hb => bad_ab_mono (price_nonneg hP i) htt hb) h1,
      h2, h3, h4, h5, h6⟩
  | b_c =>
    exact ⟨h1, clause_false_mono
        (fun i j hb => bad_bc_mono (price_nonneg hP i) htt hb) h2,
      h3, h4, h5, h6⟩
  | a_c => exact absurd rfl hk
  | c_d =>
    exact ⟨h1, h2, h3, clause_false_mono
        (fun i j hb => bad_cd_mono (price_nonneg hP i) htt hb) h4,
      h5, h6⟩
  | b_d =>
    exact ⟨h1, h2, h3, h4, clause_false_mono
        (fun i j hb => bad_bd_mono (price_nonneg hP i) htt hb) h5,
      h6⟩
  | d_e =>
    exact ⟨h1, h2, h3, h4, h5, clause_false_mono
        (fun i j hb => bad_de_mono (price_nonneg hP i) htt hb) h6⟩

lemma pdv_mono_band {P : List ℚ} {pt : PriceThresholds} {t t' : ℚ}
    (hP : ∀ x ∈ P, 0 ≤ x) (htt : t ≤ t') (a b c d e : Option ℕ)
    (h : price_difference_is_valid a b c d e P
        (ptSet pt PricePair.a_c t) = some true) :
    price_difference_is_valid a b c d e P (ptSet pt PricePair.a_c t') = some true := by
  rw [pdv_true_iff] at h ⊢
  obtain ⟨h1, h2, h3, h4, h5, h6⟩ := h
  exact ⟨h1, h2, clause_false_mono
      (fun i j hb => bad_ac_mono (price_nonneg hP i) htt hb) h3,
    h4, h5, h6⟩

lemma loopE_subset {P : List ℚ} {pt1 pt2 : PriceThresholds}
    {dt : DistanceThresholds} {a b c d : ℕ}
    (Hmono : ∀ a2 b2 c2 d2 e2 : Option ℕ,
      price_difference_is_valid a2 b2 c2 d2 e2 P pt2 = some true →
      price_difference_is_valid a2 b2 c2 d2 e2 P pt1 = some true)
    (es : List ℕ) {l1 l2 : List Pattern}
    (h1 : loopE P pt1 dt a b c d es = some l1)
    (h2 : loopE P pt2 dt a b c d es = some l2) :
    ∀ pat ∈ l2, pat ∈ l1 := by
  induction es generalizing l1 l2 with
  | nil =>
    simp only [loopE, Option.some.injEq] at h2
    subst h2
    intro pat hpat
    exact absurd hpat (List.not_mem_nil pat)
  | cons e rest ih =>
    simp only [loopE] at h1 h2
    by_cases hg : (decide (d < e) && distance_is_valid d e dt DistPair.d_e) = true
    · rw [if_pos hg] at h1 h2
      obtain ⟨v1, hv1, h1b⟩ := Option.bind_eq_some.mp h1
      obtain ⟨tail1, htail1, h1c⟩ := Option.bind_eq_some.mp h1b
      simp only [Option.some.injEq] at h1c
      subst h1c
      obtain ⟨v2, hv2, h2b⟩ := Option.bind_eq_some.mp h2
      obtain ⟨tail2, htail2, h2c⟩ := Option.bind_eq_some.mp h2b
      simp only [Option.some.injEq] at h2c
      subst h2c
      intro pat hpat
      have htails := ih htail1 htail2
      cases v2 with
      | true =>
        have hv1true : v1 = true := by
          have := Hmono (some a) (some b) (some c) (some d) (some e) hv2
          rw [this] at hv1
          exact (Option.some.inj hv1).symm
        subst hv1true
        simp only [if_true] at hpat ⊢
        rcases List.mem_cons.mp hpat with hp | hp
        · exact hp ▸ List.mem_cons_self _ _
        · exact List.mem_cons_of_mem _ (htails pat hp)
      | false =>
        simp only [Bool.false_eq_true, if_false] at hpat
        have hmem := htails pat hpat
        cases v1 with
        | true => exact List.mem_cons_of_mem _ hmem
        | false => simpa using hmem
    · rw [if_neg hg] at h1 h2
      exact ih h1 h2

lemma loopD_subset {P : List ℚ} {pt1 pt2 : PriceThresholds}
    {dt : DistanceThresholds} {maxima : List ℕ} {a b c : ℕ}
    (Hmono : ∀ a2 b2 c2 d2 e2 : Option ℕ,
      price_difference_is_valid a2 b2 c2 d2 e2 P pt2 = some true →
      price_difference_is_valid a2 b2 c2 d2 e2 P pt1 = some true)
    (ds : List ℕ) {l1 l2 : List Pattern}
    (h1 : loopD P pt1 dt maxima a b c ds = some l1)
    (h2 : loopD P pt2 dt maxima a b c ds = some l2) :
    ∀ pat ∈ l2, pat ∈ l1 := by
  induction ds generalizing l1 l2 with
  | nil =>
    simp only [loopD, Option.some.injEq] at h2
    subst h2
    intro pat hpat
    exact absurd hpat (List.not_mem_nil pat)
  | cons d2 rest ih =>
    simp only [loopD] at h1 h2
    by_cases hg : (decide (c < d2) && distance_is_valid c d2 dt DistPair.c_d) = true
    · rw [if_pos hg] at h1 h2
      obtain ⟨v1, hv1, h1b⟩ := Option.bind_eq_some.mp h1
      obtain ⟨v2, hv2, h2b⟩ := Option.bind_eq_some.mp h2
      cases v2 with
      | true =>
        have hv1true : v1 = true := by
          have := Hmono (some a) (some b) (some c) (some d2) none hv2
          rw [this] at hv1
          exact (Option.some.inj hv1).symm
        subst hv1true
        simp only [if_true] at h1b h2b
        obtain ⟨block1, hblock1, h1c⟩ := Option.bind_eq_some.mp h1b
        obtain ⟨tail1, htail1, h1d⟩ := Option.bind_eq_some.mp h1c
        simp only [Option.some.injEq] at h1d
        subst h1d
        obtain ⟨block2, hblock2, h2c⟩ := Option.bind_eq_some.mp h2b
        obtain ⟨tail2, htail2, h2d⟩ := Option.bind_eq_some.mp h2c
        simp only [Option.some.injEq] at h2d
        subst h2d
        intro pat hpat
        rcases List.mem_append.mp hpat with hp | hp
        · exact List.mem_append.mpr (Or.inl
            (loopE_subset Hmono maxima hblock1 hblock2 pat hp))
        · exact List.mem_append.mpr (Or.inr (ih htail1 htail2 pat hp))
      | false =>
        simp only [Bool.false_eq_true, if_false] at h2b
        cases v1 with
        | true =>
          simp only [if_true] at h1b
          obtain ⟨block1, hblock1, h1c⟩ := Option.bind_eq_some.mp h1b
          obtain ⟨tail1, htail1, h1d⟩ := Option.bind_eq_some.mp h1c
          simp only [Option.some.injEq] at h1d
          subst h1d
          intro pat hpat
          exact List.mem_append.mpr (Or.inr (ih htail1 h2b pat hpat))
        | false =>
          simp only [Bool.false_eq_true, if_false] at h1b
          exact ih h1b h2b
    · rw [if_neg hg] at h1 h2
      exact ih h1 h2

lemma loopC_subset {P : List ℚ} {pt1 pt2 : PriceThresholds}
    {dt : DistanceThresholds} {maxima minima : List ℕ} {a b : ℕ}
    (Hmono : ∀ a2 b2 c2 d2 e2 : Option ℕ,
      price_difference_is_valid a2 b2 c2 d2 e2 P pt2 = some true →
      price_difference_is_valid a2 b2 c2 d2 e2 P pt1 = some true)
    (cs : List ℕ) {l1 l2 : List Pattern}
    (h1 : loopC P pt1 dt maxima minima a b cs = some l1)
    (h2 : loopC P pt2 dt maxima minima a b cs = some l2) :
    ∀ pat ∈ l2, pat ∈ l1 := by
  induction cs generalizing l1 l2 with
  | nil =>
    simp only [loopC, Option.some.injEq] at h2
    subst h2
    intro pat hpat
    exact absurd hpat (List.not_mem_nil pat)
  | cons c2 rest ih =>
    simp only [loopC] at h1 h2
    by_cases hg : (decide (b < c2) && distance_is_valid b c2 dt DistPair.b_c) = true
    · rw [if_pos hg] at h1 h2
      obtain ⟨v1, hv1, h1b⟩ := Option.bind_eq_some.mp h1
      obtain ⟨v2, hv2, h2b⟩ := Option.bind_eq_some.mp h2
      cases v2 with
      | true =>
        have hv1true : v1 = true := by
          have := Hmono (some a) (some b) (some c2) none none hv2
          rw [this] at hv1
          exact (Option.some.inj hv1).symm
        subst hv1true
        simp only [if_true] at h1b h2b
        obtain ⟨block1, hblock1, h1c⟩ := Option.bind_eq_some.mp h1b
        obtain ⟨tail1, htail1, h1d⟩ := Option.bind_eq_some.mp h1c
        simp only [Option.some.injEq] at h1d
        subst h1d
        obtain ⟨block2, hblock2, h2c⟩ := Option.bind_eq_some.mp h2b
        obtain ⟨tail2, htail2, h2d⟩ := Option.bind_eq_some.mp h2c
        simp only [Option.some.injEq] at h2d
        subst h2d
        intro pat hpat
        rcases List.mem_append.mp hpat with hp | hp
        · exact List.mem_append.mpr (Or.inl
            (loopD_subset Hmono minima hblock1 hblock2 pat hp))
        · exact List.mem_append.mpr (Or.inr (ih htail1 htail2 pat hp))
      | false =>
        simp only [Bool.false_eq_true, if_false] at h2b
        cases v1 with
        | true =>
          simp only [if_true] at h1b
          obtain ⟨block1, hblock1, h1c⟩ := Option.bind_eq_some.mp h1b
          obtain ⟨tail1, htail1, h1d⟩ := Option.bind_eq_some.mp h1c
          simp only [Option.some.injEq] at h1d
          subst h1d
          intro pat hpat
          exact List.mem_append.mpr (Or.inr (ih htail1 h2b pat hpat))
        | false =>
          simp only [Bool.false_eq_true, if_false] at h1b
          exact ih h1b h2b
    · rw [if_neg hg] at h1 h2
      exact ih h1 h2

lemma loopB_subset {P : List ℚ} {pt1 pt2 : PriceThresholds}
    {dt : DistanceThresholds} {maxima minima : List ℕ} {a : ℕ}
    (Hmono : ∀ a2 b2 c2 d2 e2 : Option ℕ,
      price_difference_is_valid a2 b2 c2 d2 e2 P pt2 = some true →
      price_difference_is_valid a2 b2 c2 d2 e2 P pt1 = some true)
    (bs : List ℕ) {l1 l2 : List Pattern}
    (h1 : loopB P pt1 dt maxima minima a bs = some l1)
    (h2 : loopB P pt2 dt maxima minima a bs = some l2) :
    ∀ pat ∈ l2, pat ∈ l1 := by
  induction bs generalizing l1 l2 with
  | nil =>
    simp only [loopB, Option.some.injEq] at h2
    subst h2
    intro pat hpat
    exact absurd hpat (List.not_mem_nil pat)
  | cons b2 rest ih =>
    simp only [loopB] at h1 h2
    by_cases hg : (decide (a < b2) && distance_is_valid a b2 dt DistPair.a_b) = true
    · rw [if_pos hg] at h1 h2
      obtain ⟨v1, hv1, h1b⟩ := Option.bind_eq_some.mp h1
      obtain ⟨v2, hv2, h2b⟩ := Option.bind_eq_some.mp h2
      cases v2 with
      | true =>
        have hv1true : v1 = true := by
          have := Hmono (some a) (some b2) none none none hv2
          rw [this] at hv1
          exact (Option.some.inj hv1).symm
        subst hv1true
        simp only [if_true] at h1b h2b
        obtain ⟨block1, hblock1, h1c⟩ := Option.bind_eq_some.mp h1b
        obtain ⟨tail1, htail1, h1d⟩ := Option.bind_eq_some.mp h1c
        simp only [Option.some.injEq] at h1d
        subst h1d
        obtain ⟨block2, hblock2, h2c⟩ := Option.bind_eq_some.mp h2b
        obtain ⟨tail2, htail2, h2d⟩ := Option.bind_eq_some.mp h2c
        simp only [Option.some.injEq] at h2d
        subst h2d
        intro pat hpat
        rcases List.mem_append.mp hpat with hp | hp
        · exact List.mem_append.mpr (Or.inl
            (loopC_subset Hmono maxima hblock1 hblock2 pat hp))
        · exact List.mem_append.mpr (Or.inr (ih htail1 htail2 pat hp))
      | false =>
        simp only [Bool.false_eq_true, if_false] at h2b
        cases v1 with
        | true =>
          simp only [if_true] at h1b
          obtain ⟨block1, hblock1, h1c⟩ := Option.bind_eq_some.mp h1b
          obtain ⟨tail1, htail1, h1d⟩ := Option.bind_eq_some.mp h1c
          simp only [Option.some.injEq] at h1d
          subst h1d
          intro pat hpat
          exact List.mem_append.mpr (Or.inr (ih htail1 h2b pat hpat))
        | false =>
          simp only [Bool.false_eq_true, if_false] at h1b
          exact ih h1b h2b
    · rw [if_neg hg] at h1 h2
      exact ih h1 h2

lemma loopA_subset {P : List ℚ} {pt1 pt2 : PriceThresholds}
    {dt : DistanceThresholds} {maxima minima : List ℕ}
    (Hmono : ∀ a2 b2 c2 d2 e2 : Option ℕ,
      price_difference_is_valid a2 b2 c2 d2 e2 P pt2 = some true →
      price_difference_is_valid a2 b2 c2 d2 e2 P pt1 = some true)
    (as2 : List ℕ) {l1 l2 : List Pattern}
    (h1 : loopA P pt1 dt maxima minima as2 = some l1)
    (h2 : loopA P pt2 dt maxima minima as2 = some l2) :
    ∀ pat ∈ l2, pat ∈ l1 := by
  induction as2 generalizing l1 l2 with
  | nil =>
    simp only [loopA, Option.some.injEq] at h2
    subst h2
    intro pat hpat
    exact absurd hpat (List.not_mem_nil pat)
  | cons a rest ih =>
    simp only [loopA] at h1 h2
    obtain ⟨block1, hblock1, h1c⟩ := Option.bind_eq_some.mp h1
    obtain ⟨tail1, htail1, h1d⟩ := Option.bind_eq_some.mp h1c
    simp only [Option.some.injEq] at h1d
    subst h1d
    obtain ⟨block2, hblock2, h2c⟩ := Option.bind_eq_some.mp h2
    obtain ⟨tail2, htail2, h2d⟩ := Option.bind_eq_some.mp h2c
    simp only [Option.some.injEq] at h2d
    subst h2d
    intro pat hpat
    rcases List.mem_append.mp hpat with hp | hp
    · exact List.mem_append.mpr (Or.inl
        (loopB_subset Hmono minima hblock1 hblock2 pat hp))
    · exact List.mem_append.mpr (Or.inr (ih htail1 htail2 pat hp))

lemma find_subset {P : List ℚ} {w : ℕ} {pt1 pt2 : PriceThresholds}
    {dtOpt : Option DistanceThresholds}
    (Hmono : ∀ a2 b2 c2 d2 e2 : Option ℕ,
      price_difference_is_valid a2 b2 c2 d2 e2 P pt2 = some true →
      price_difference_is_valid a2 b2 c2 d2 e2 P pt1 = some true)
    (hc1 : completePT pt1) (hc2 : completePT pt2) :
    ∀ pat ∈ (find_cup_and_handle_pattern P w (some pt2) dtOpt).getD [],
      pat ∈ (find_cup_and_handle_pattern P w (some pt1) dtOpt).getD [] := by
  intro pat hpat
  unfold find_cup_and_handle_pattern at hpat ⊢
  rcases hgmm : get_min_max_indices P w with _ | ⟨mx, mn⟩
  · rw [hgmm] at hpat
    exact absurd hpat (by simp)
  simp only [hgmm, Option.some_bind, Option.getD_some] at hpat ⊢
  obtain ⟨l1, hl1⟩ := Option.isSome_iff_exists.mp
    (@loopA_total P pt1 (dtOpt.getD default_distance_thresholds) mx mn hc1
      (mx.take (mx.length - 4)))
  obtain ⟨l2, hl2⟩ := Option.isSome_iff_exists.mp
    (@loopA_total P pt2 (dtOpt.getD default_distance_thresholds) mx mn hc2
      (mx.take (mx.length - 4)))
  rw [hl2] at hpat
  rw [hl1]
  simp only [Option.getD_some] at hpat ⊢
  exact loopA_subset Hmono _ hl1 hl2 pat hpat

/-- C5 (amended): over a nonnegative price series with a complete
price-threshold dictionary, increasing any one of the five lower-bound
thresholds a_b, b_c, c_d, b_d, d_e (keeping the rest fixed) can only remove
quintuples from the match set; the a_c threshold is an upper-bound (band)
constraint, so increasing it can only add quintuples. -/
theorem C5_threshold_monotonicity (P : List ℚ) (w : ℕ)
    (dtOpt : Option DistanceThresholds) (pt : PriceThresholds) (t t' : ℚ)
    (hP : ∀ x ∈ P, 0 ≤ x) (hc : completePT pt) (htt : t ≤ t') :
    (∀ k : PricePair, k ≠ PricePair.a_c →
      ∀ pat : Pattern,
        pat ∈ (find_cup_and_handle_pattern P w (some (ptSet pt k t')) dtOpt).getD [] →
        pat ∈ (find_cup_and_handle_pattern P w (some (ptSet pt k t)) dtOpt).getD []) ∧
    (∀ pat : Pattern,
      pat ∈ (find_cup_and_handle_pattern P w
        (some (ptSet pt PricePair.a_c t)) dtOpt).getD [] →
      pat ∈ (find_cup_and_handle_pattern P w
        (some (ptSet pt PricePair.a_c t')) dtOpt).getD []) := by
  constructor
  · intro k hk pat hpat
    exact find_subset
      (fun a2 b2 c2 d2 e2 h => pdv_mono_lower hk hP htt a2 b2 c2 d2 e2 h)
      (completePT_ptSet hc k t) (completePT_ptSet hc k t') pat hpat
  · intro pat hpat
    exact find_subset
      (fun a2 b2 c2 d2 e2 h => pdv_mono_band hP htt a2 b2 c2 d2 e2 h)
      (completePT_ptSet hc PricePair.a_c t') (completePT_ptSet hc PricePair.a_c t)
      pat hpat

/-- Counterexample to C5 as stated: increasing only the a_c threshold from
1/100 to 1/10 turns the empty match set on `pricesEx` into a non-empty one
(the a_c constraint is an upper bound on |prices[c] − prices[a]|, so
tightening in the claimed sense loosens it). -/
theorem C5_counterexample :
    (1 / 100 : ℚ) < 1 / 10 ∧
    find_cup_and_handle_pattern pricesEx 1 (some ptExNarrow) (some dtEx) = some [] ∧
    (1, 2, 3, 4, 5) ∈
      (find_cup_and_handle_pattern pricesEx 1 (some ptEx) (some dtEx)).getD [] := by
  refine ⟨by with_unfolding_all decide, by with_unfolding_all decide,
    by with_unfolding_all decide⟩

/-- Witness for C5: lowering the a_b threshold from 1/10 to 1/100 keeps the
match (1,2,3,4,5) on `pricesEx`. -/
theorem C5_witness :
    (1, 2, 3, 4, 5) ∈
      (find_cup_and_handle_pattern pricesEx 1
        (some (ptSet ptEx PricePair.a_b (1 / 100))) (some dtEx)).getD [] :=
  (C5_threshold_monotonicity pricesEx 1 (some dtEx) ptEx (1 / 100) (1 / 10)
      (by decide) (by decide) (by with_unfolding_all decide)).1
    PricePair.a_b (by decide) (1, 2, 3, 4, 5) (by with_unfolding_all decide)
